import Mathlib

/-!
Verification of the rustos kernel core against its specification.

The definitions below are a shallow embedding of the Rust sources:
  * `src/kern/src/allocator/util.rs`  (align_up)
  * `src/kern/src/allocator/bin.rs`   (bin allocator: absorb_memory, alloc, dealloc)
  * `src/kern/src/vm/pagetable.rs`    (PageTable, UserPageTable)
  * `src/kern/src/process/process.rs` (Process::is_ready)
  * `src/kern/src/process/scheduler.rs` (Scheduler)
  * `src/kern/src/traps/syscall.rs`   (handle_syscall, sys_sleep)
  * `src/boot/src/main.rs`            (bootloader receive loop)
Machine integers (usize/u64) are modelled as `Nat`; the places where the
Rust code truncates (an `as u32` cast) use an explicit `% 2^32`.
-/

/-! ## Allocator utilities, from src/kern/src/allocator/util.rs -/

/-- Embedding of `align_up(addr, align)`.  The Rust function panics when
`align` is not a power of two and on `checked_add` overflow; the theorems
below only invoke it at power-of-two alignments (the claim's hypothesis),
where the value computed here is exactly the Rust value. -/
def align_up (addr align : Nat) : Nat :=
  if addr % align = 0 then addr else addr - addr % align + align

/-- Recursion for `nextPow2`: `next_power_of_two n = 2 * next_power_of_two
(ceil (n / 2))` for `n ≥ 2`.  The fuel argument makes the recursion
structural; `fuel = n` always suffices since the argument at least halves. -/
def np2go : Nat → Nat → Nat
  | 0, _ => 1
  | f + 1, n => if n ≤ 1 then 1 else 2 * np2go f ((n + 1) / 2)

/-- Embedding of Rust `usize::next_power_of_two`: the least power of two
that is `≥ n` (and `1` for `n = 0`). -/
def nextPow2 (n : Nat) : Nat := np2go n n

/-! ## Bin allocator, from src/kern/src/allocator/bin.rs

The allocator state `bins` maps a size class `k` to the list of start
addresses of the free blocks on class `k`'s list; class `k` blocks span
`2^(k+3)` bytes.  The intrusive `LinkedList` container itself is not under
src/; per the spec's data model ("a single intrusive forward pointer at
offset 0, forming a singly linked free list per class") it is modelled as
a list with `push` at the head and in-order iteration. -/

def Bins : Type := Nat → List Nat

/-- Modelled from the spec: `LinkedList::push` of the intrusive free list
(file `linked_list.rs`, not under src/) prepends a node at the list head. -/
def pushNode (bins : Bins) (k a : Nat) : Bins :=
  fun i => if i = k then a :: bins i else bins i

/-- Apply a sequence of `(class, address)` pushes, in order. -/
def applyPushList (bins : Bins) (ps : List (Nat × Nat)) : Bins :=
  ps.foldl (fun bs p => pushNode bs p.1 p.2) bins

/-- Inner `while curr + block_size <= end` loop of `absorb_memory`:
returns the addresses pushed at this block size together with the final
`curr`.  `fuel` bounds the iteration count; `e - curr` always suffices
because each iteration advances `curr` by `bs ≥ 8`. -/
def carveGo (bs e : Nat) : Nat → Nat → List Nat × Nat
  | 0, curr => ([], curr)
  | f + 1, curr =>
    if 0 < bs ∧ curr + bs ≤ e then
      let r := carveGo bs e f (curr + bs)
      (curr :: r.1, r.2)
    else ([], curr)

/-- One block-size level of `absorb_memory`. -/
def carveRun (bs e curr : Nat) : List Nat × Nat := carveGo bs e (e - curr) curr

/-- The ordered list of `(bin, address)` pushes performed by
`absorb_memory(allocator, curr, e)` when entered at class `bin` (the Rust
function starts at `bin = 29`, `block_size = 1 << 32 = 2^(29+3)`, and
halves the block size as `bin` decrements down to 0). -/
def absorbPushes : Nat → Nat → Nat → List (Nat × Nat)
  | 0, curr, e => (carveRun 8 e curr).1.map (fun a => (0, a))
  | b + 1, curr, e =>
    let r := carveRun (2 ^ (b + 1 + 3)) e curr
    (r.1.map (fun a => (b + 1, a))) ++ absorbPushes b r.2 e

/-- Embedding of `absorb_memory(allocator, s, e)`. -/
def absorbMem (bins : Bins) (s e : Nat) : Bins :=
  applyPushList bins (absorbPushes 29 s e)

/-- The empty allocator, `Allocator { bins: [LinkedList::new(); 30] }`. -/
def binsEmpty : Bins := fun _ => []

/-- Embedding of `Allocator::new(start, end)`. -/
def allocatorNew (s e : Nat) : Bins := absorbMem binsEmpty s e

/-- The effective block size of a layout: the `target_size` computation at
the top of `Allocator::alloc` (and repeated verbatim in `dealloc`). -/
def targetSize (size align : Nat) : Nat :=
  if nextPow2 size > align then
    (if nextPow2 size > 8 then nextPow2 size else 8)
  else if align > 8 then align else 8

/-- The effective alignment `target_align` of `Allocator::alloc`. -/
def targetAlign (align : Nat) : Nat := if align > 8 then align else 8

/-- The `for node in self.bins[bin].iter_mut()` scan of one class list in
`Allocator::alloc`.  The Rust loop returns at the first node whose start
is already aligned (`start == start_of_alloc`), and otherwise keeps
overwriting `good_node = Some(node)` with every node that can fit the
allocation, so that when no exact node exists the node popped is the last
fitting node scanned.  `scanBin` returns `some (true, idx)` for the first
exact fit at index `idx`, `some (false, idx)` for the last plain fit, and
`none` when no node fits. -/
def scanBin (tA tS bS : Nat) : List Nat → Option (Bool × Nat)
  | [] => none
  | n :: rest =>
    if align_up n tA + tS ≤ n + bS then
      if n = align_up n tA then some (true, 0)
      else
        match scanBin tA tS bS rest with
        | some (ex, j) => some (ex, j + 1)
        | none => some (false, 0)
    else
      match scanBin tA tS bS rest with
      | some (ex, j) => some (ex, j + 1)
      | none => none

/-- Remove the node at position `idx` of class `k` (the `node.pop()` /
`n.pop()` calls in `Allocator::alloc`). -/
def eraseBin (bins : Bins) (k idx : Nat) : Bins :=
  fun i => if i = k then (bins k).eraseIdx idx else bins i

/-- The `while bin < 30` loop of `Allocator::alloc`, entered with
`remaining = 30 - bin` classes left to visit.  On a hit it pops the chosen
node, re-absorbs the unused head and tail of the block, and returns the
aligned start; otherwise it moves to the next class and finally returns
null (`none`). -/
def allocFrom (tS tA : Nat) : Nat → Nat → Bins → Option Nat × Bins
  | 0, _, bins => (none, bins)
  | r + 1, bin, bins =>
    match scanBin tA tS (2 ^ (bin + 3)) (bins bin) with
    | some (ex, idx) =>
      match (bins bin)[idx]? with
      | some n =>
        if ex then
          (some (align_up n tA),
            absorbMem (eraseBin bins bin idx) (align_up n tA + tS) (n + 2 ^ (bin + 3)))
        else
          (some (align_up n tA),
            absorbMem (absorbMem (eraseBin bins bin idx) n (align_up n tA))
              (align_up n tA + tS) (n + 2 ^ (bin + 3)))
      | none => (none, bins)
    | none => allocFrom tS tA r (bin + 1) bins

/-- Embedding of `Allocator::alloc(layout)` for a layout of `size` bytes
and alignment `align`. -/
def binAlloc (bins : Bins) (size align : Nat) : Option Nat × Bins :=
  allocFrom (targetSize size align) (targetAlign align) 30 0 bins

/-- Embedding of `Allocator::dealloc(ptr, layout)`. -/
def binDealloc (bins : Bins) (ptr size align : Nat) : Bins :=
  absorbMem bins ptr (ptr + targetSize size align)

/-- One operation of an allocator trace: an `alloc` or a `dealloc` with
the layout it was given. -/
inductive AllocOp where
  | alloc (size align : Nat)
  | dealloc (ptr size align : Nat)
deriving DecidableEq

/-- Allocator trace state: the free lists plus the multiset of live
allocations `(ptr, size, align)` handed out and not yet returned. -/
structure AllocState where
  bins : Bins
  live : List (Nat × Nat × Nat)

/-- State after `Allocator::new(s, e)`. -/
def allocInit (s e : Nat) : AllocState := ⟨allocatorNew s e, []⟩

/-- Execute one trace operation.  `dealloc` is executed only when
`(ptr, size, align)` is live, which is exactly the safety contract stated
on `Allocator::dealloc` (the pointer must come from an `alloc` with the
same layout); an op violating the contract is undefined behavior in the
source and is skipped here. -/
def allocStep (st : AllocState) (op : AllocOp) : AllocState × Option Nat :=
  match op with
  | .alloc size align =>
    let r := binAlloc st.bins size align
    match r.1 with
    | some p => (⟨r.2, (p, size, align) :: st.live⟩, some p)
    | none => (⟨r.2, st.live⟩, none)
  | .dealloc ptr size align =>
    if (ptr, size, align) ∈ st.live then
      (⟨binDealloc st.bins ptr size align, st.live.erase (ptr, size, align)⟩, none)
    else (st, none)

/-- Run a trace from `Allocator::new(s, e)`. -/
def allocRun (s e : Nat) (ops : List AllocOp) : AllocState :=
  ops.foldl (fun st op => (allocStep st op).1) (allocInit s e)

/-- Power-of-two alignments up to 4 GiB, the claim's hypothesis on every
operation of the trace. -/
def opAlignOk : AllocOp → Prop
  | .alloc _ align => ∃ j, j ≤ 32 ∧ align = 2 ^ j
  | .dealloc _ _ align => ∃ j, j ≤ 32 ∧ align = 2 ^ j

/-- Every free block recorded in `bins` lies inside the managed range
`[s, e)`: a node `a` on class `k`'s list heads the block `[a, a + 2^(k+3))`. -/
def BinsInv (s e : Nat) (bins : Bins) : Prop :=
  ∀ k a, a ∈ bins k → s ≤ a ∧ a + 2 ^ (k + 3) ≤ e

/-- Every live allocation's effective block lies inside `[s, e)`. -/
def LiveInv (s e : Nat) (live : List (Nat × Nat × Nat)) : Prop :=
  ∀ p sz al, (p, sz, al) ∈ live → s ≤ p ∧ p + targetSize sz al ≤ e

/-- Combined allocator trace invariant. -/
def AllocInv (s e : Nat) (st : AllocState) : Prop :=
  BinsInv s e st.bins ∧ LiveInv s e st.live

/-! ## Page tables, from src/kern/src/vm/pagetable.rs

A `PageTable` owns one L2 table whose first two entries are wired by
`PageTable::new` to its two L3 tables, laid out contiguously.  The model
keeps, per L2 slot, the validity bit together with the index of the L3
table the entry's `ADDR` field resolves to (the source recovers that
index as `(l3_address - self.l3[0].as_ptr()) / PAGE_SIZE`, which is the
table's position in the contiguous layout).  An L3 entry is modelled by
`Option Nat`: `some a` is a valid page descriptor whose `ADDR` field
holds `a`, `none` an invalid (zero) entry. -/

/-- Modelled from the spec: `PAGE_SIZE` lives in `param.rs`, which is not
under src/; the spec fixes the granule at 64 KiB. -/
def PAGE_SIZE : Nat := 65536

/-- Modelled from the spec: `USER_IMG_BASE` lives in `param.rs`, which is
not under src/; the spec gives `0xFFFFFFFFC0000000`. -/
def USER_IMG_BASE : Nat := 0xFFFFFFFFC0000000

/-- L2 index of a virtual address, `(va & (1 << 29)) >> 29` in
`PageTable::locate`: bit 29 only. -/
def l2idx (va : Nat) : Nat := va / 2 ^ 29 % 2

/-- L3 index of a virtual address, `(va & (0x1fff << 16)) >> 16` in
`PageTable::locate`: bits 28:16 only. -/
def l3idx (va : Nat) : Nat := va / 2 ^ 16 % 2 ^ 13

/-- The `ADDR` field (bits 47:16) kept by `set_masked`/`get_masked` with
the `RawL3Entry::ADDR` mask. -/
def addrMask (p : Nat) : Nat := p / 2 ^ 16 % 2 ^ 32 * 2 ^ 16

/-- Shallow state of a `PageTable`: `l2tgt i = some t` models a valid L2
entry whose `ADDR` points at L3 table `t`; `entries t j` is L3 table `t`,
slot `j`. -/
structure PT where
  l2tgt : Fin 2 → Option (Fin 2)
  entries : Fin 2 → Fin 8192 → Option Nat

/-- Fin-valued L2 index. -/
def l2fin (va : Nat) : Fin 2 := ⟨l2idx va, Nat.mod_lt _ (by decide)⟩

/-- Fin-valued L3 index. -/
def l3fin (va : Nat) : Fin 8192 := ⟨l3idx va, Nat.mod_lt _ (by decide)⟩

/-- Embedding of `PageTable::new`: both L2 entries are made valid table
descriptors pointing at the table's own two L3 tables (identity wiring),
and every L3 entry starts invalid (`RawL3Entry::new(0)`). -/
def ptNew : PT := ⟨fun i => some i, fun _ _ => none⟩

/-- Embedding of `PageTable::is_valid(va)`. -/
def ptIsValid (pt : PT) (va : Nat) : Bool :=
  match pt.l2tgt (l2fin va) with
  | none => false
  | some t => (pt.entries t (l3fin va)).isSome

/-- Embedding of `PageTable::set_entry(va, entry)`.  The source reads the
L3 table's address out of the L2 entry unconditionally; every reachable
table has both L2 entries valid (they are wired by `PageTable::new` and
never cleared), so the `none` branch is unreachable and returns the table
unchanged. -/
def ptSetEntry (pt : PT) (va : Nat) (e : Option Nat) : PT :=
  match pt.l2tgt (l2fin va) with
  | some t =>
    ⟨pt.l2tgt, fun i j => if i = t ∧ j = l3fin va then e else pt.entries i j⟩
  | none => pt

/-- Page permissions passed to `UserPageTable::alloc` (ignored by the
source, which always writes `USER_RW`). -/
inductive PagePerm where
  | RW | RO | RWX
deriving DecidableEq

/-- Result of one `UserPageTable::alloc` call: one of its three panics, or
the updated table together with the raw frame pointer whose bytes are
returned to the caller. -/
inductive UPTAllocResult where
  | panicBadVA
  | panicMapped
  | panicNoMem
  | ok (pt : PT) (page : Nat)

/-- Embedding of `UserPageTable::alloc(va, perm)`.  `frame` is the result
of the global allocator call `ALLOCATOR.alloc(Page::layout())`: `none`
models a null return.  The `_perm` argument is ignored exactly as in the
source. -/
def uptAlloc (pt : PT) (va : Nat) (_perm : PagePerm) (frame : Option Nat) :
    UPTAllocResult :=
  if va < USER_IMG_BASE then .panicBadVA
  else if ptIsValid pt va then .panicMapped
  else
    match frame with
    | none => .panicNoMem
    | some p => .ok (ptSetEntry pt va (some (addrMask p))) p

/-- The pages freed by `impl Drop for UserPageTable`: iterate both L3
tables in order (the `IntoIterator` chain of `l3[0]` then `l3[1]`) and
collect `get_page_addr()` of every valid entry, each of which receives
one `ALLOCATOR.dealloc` call. -/
def uptDropFrees (pt : PT) : List Nat :=
  (List.finRange 8192).filterMap (fun j => pt.entries 0 j) ++
    (List.finRange 8192).filterMap (fun j => pt.entries 1 j)

/-- Number of valid L3 entries of the table. -/
def validEntryCount (pt : PT) : Nat :=
  ((List.finRange 8192).filterMap (fun j => pt.entries 0 j)).length +
    ((List.finRange 8192).filterMap (fun j => pt.entries 1 j)).length

/-- Run a sequence of `UserPageTable::alloc` calls, each given the virtual
address, permission, and the frame the global allocator hands back for
it.  Returns `none` as soon as a call panics (a kernel panic stops the
program: later calls, and the eventual drop, never happen), otherwise the
final table and the number of successful calls. -/
def uptRun : PT → List (Nat × PagePerm × Option Nat) → Option (PT × Nat)
  | pt, [] => some (pt, 0)
  | pt, (va, perm, frame) :: rest =>
    match uptAlloc pt va perm frame with
    | .ok pt2 _ => (uptRun pt2 rest).map (fun r => (r.1, r.2 + 1))
    | _ => none

/-! ## Processes and the scheduler, from src/kern/src/process/process.rs
and src/kern/src/process/scheduler.rs

The `TrapFrame` is modelled by the fields the scheduler and the syscall
layer touch: `tpidr` (the PID) and the two x-registers used for syscall
results.  A `Waiting` predicate is an `FnMut(&mut Process) -> bool`
closure; per the spec's waiting-predicate contract it owns mutable
captured state and "is responsible for writing the syscall return values
into `context.x_registers[...]`", so it is modelled as a function from
the current time, its captured state, and the process context to the
fired flag, the new captured state, and the new `x0`/`x7` values. -/

structure TF where
  tpidr : Nat
  x0 : Nat
  x7 : Nat
deriving DecidableEq

/-- Scheduling state of a process (`State` in `process/state.rs`). -/
inductive PState where
  | ready
  | running
  | dead
  | waiting (f : Nat → Nat → TF → Bool × Nat × Nat × Nat) (st : Nat)

/-- A process, `Process { context, stack, vmap, state }`; the stack and
the page table do not participate in any scheduling decision and are
omitted from the scheduler model (the page table is modelled separately
by `PT` above). -/
structure SProc where
  context : TF
  state : PState

/-- Embedding of `Process::is_ready` at time `env`.  The source replaces
`self.state` with `Ready`, then: for `Ready` it returns true; for
`Waiting(f)` it polls `f`, keeps `Ready` when the predicate fires and
restores the (mutated) predicate otherwise; for `Running`/`Dead` the
replaced state is never restored, leaving the process `Ready`. -/
def isReadyStep (env : Nat) (p : SProc) : Bool × SProc :=
  match p.state with
  | .ready => (true, p)
  | .waiting f st =>
    let r := f env st p.context
    let ctx := { p.context with x0 := r.2.2.1, x7 := r.2.2.2 }
    if r.1 then (true, { context := ctx, state := .ready })
    else (false, { context := ctx, state := .waiting f r.2.1 })
  | _ => (false, { p with state := .ready })

/-- The scan loop of `Scheduler::switch_to`: walk the queue calling
`is_ready` on each process (whose mutations persist even when it reports
not-ready) until the first ready one; return the mutated prefix, and the
ready process with the untouched suffix when one exists. -/
def scanReady (env : Nat) : List SProc → List SProc × Option (SProc × List SProc)
  | [] => ([], none)
  | p :: rest =>
    let r := isReadyStep env p
    if r.1 then ([], some (r.2, rest))
    else
      let r2 := scanReady env rest
      (r.2 :: r2.1, r2.2)

/-- Embedding of `Scheduler::switch_to(tf)`: the first ready process is
removed from its position, set `Running`, its saved context is copied
into the trap frame, and it is pushed to the front; returns its PID, or
`none` (and the partially mutated queue) when nothing is ready. -/
def switchTo (env : Nat) (procs : List SProc) (tf : TF) :
    List SProc × TF × Option Nat :=
  match scanReady env procs with
  | (pre, some (p, suf)) =>
    ({ p with state := .running } :: (pre ++ suf), p.context, some p.context.tpidr)
  | (pre, none) => (pre, tf, none)

/-- True exactly on `State::Running` (the `if let State::Running` test). -/
def isRun : PState → Bool
  | .running => true
  | _ => false

/-- The search loop of `Scheduler::schedule_out`: index of the first
queue entry whose `context.tpidr` equals the trap frame's and whose state
is `Running`. -/
def findRunIdx (tpid : Nat) : List SProc → Option Nat
  | [] => none
  | p :: rest =>
    if p.context.tpidr = tpid ∧ isRun p.state then some 0
    else (findRunIdx tpid rest).map (fun j => j + 1)

/-- True exactly on `State::Dead` (the `if let State::Dead = new_state`
test deciding whether the process is re-queued). -/
def isDead : PState → Bool
  | .dead => true
  | _ => false

/-- Embedding of `Scheduler::schedule_out(new_state, tf)`: the running
process matching `tf.tpidr` is removed, its state set to `new_state`,
the trap frame saved into its context, and it is pushed to the back
unless the new state is `Dead` (in which case it is dropped). -/
def scheduleOut (procs : List SProc) (ns : PState) (tf : TF) :
    List SProc × Bool :=
  match findRunIdx tf.tpidr procs with
  | some i =>
    match procs[i]? with
    | some _p =>
      let p2 : SProc := { context := tf, state := ns }
      let rest := procs.eraseIdx i
      (if isDead ns then rest else rest ++ [p2], true)
    | none => (procs, false)
  | none => (procs, false)

/-- Scheduler machine state for traces: the queue and the shared trap
frame the assembly exposes to the kernel. -/
structure SchedM where
  procs : List SProc
  tf : TF

/-- Trace operations: a bare `switch_to` attempt (one iteration of
`GlobalScheduler::switch_to`'s retry loop, at time `env`), or a
`switch(new_state, tf)` (`schedule_out` followed by a `switch_to`
attempt), which with `new_state = Ready` is exactly the timer tick path. -/
inductive SchedOp where
  | switchTo (env : Nat)
  | switch (ns : PState) (env : Nat)

/-- Execute one scheduler trace operation; the second component is the
PID returned by the embedded `switch_to`, when it found a process. -/
def schedStep (m : SchedM) (op : SchedOp) : SchedM × Option Nat :=
  match op with
  | .switchTo env =>
    let r := switchTo env m.procs m.tf
    (⟨r.1, r.2.1⟩, r.2.2)
  | .switch ns env =>
    let q := (scheduleOut m.procs ns m.tf).1
    let r := switchTo env q m.tf
    (⟨r.1, r.2.1⟩, r.2.2)

/-- Run a scheduler trace, collecting every `switch_to` result. -/
def schedRun : SchedM → List SchedOp → SchedM × List (Option Nat)
  | m, [] => (m, [])
  | m, op :: ops =>
    let r := schedStep m op
    let r2 := schedRun r.1 ops
    (r2.1, r.2 :: r2.2)

/-- A predicate that always returns false, no matter the time, captured
state, or process context it is polled with. -/
def AlwaysFalse (f : Nat → Nat → TF → Bool × Nat × Nat × Nat) : Prop :=
  ∀ env st tf, (f env st tf).1 = false

/-- The process is in `Waiting(f)` with some captured state. -/
def WaitingOn (f : Nat → Nat → TF → Bool × Nat × Nat × Nat) (p : SProc) : Prop :=
  ∃ st, p.state = .waiting f st

/-! ### Scheduler::add, from src/kern/src/process/scheduler.rs -/

/-- Embedding of `u64::checked_add(1)` on a PID. -/
def checkedAddOne (pid : Nat) : Option Nat :=
  if pid < 2 ^ 64 - 1 then some (pid + 1) else none

/-- The scheduler's bookkeeping for `add`: the queue and
`last_id : Option<Id>`. -/
structure SchedQ where
  processes : List SProc
  last_id : Option Nat
deriving Inhabited

/-- Embedding of `Scheduler::add(process)`: compute the next PID
(`last_id + 1`, or 0 when no PID was ever assigned), and on success store
it into the process's `context.tpidr`, push the process to the back, and
record it as `last_id`; on PID overflow return `none` with the state
untouched. -/
def schedAdd (s : SchedQ) (p : SProc) : SchedQ × Option Nat :=
  let newPid :=
    match s.last_id with
    | some pid => checkedAddOne pid
    | none => some 0
  match newPid with
  | some pid =>
    (⟨s.processes ++ [{ p with context := { p.context with tpidr := pid } }],
      some pid⟩, some pid)
  | none => (s, none)

/-! ## System calls, from src/kern/src/traps/syscall.rs -/

/-- Modelled from the spec: the syscall numbers live in the kernel_api
crate root, which is not under src/; the spec's table gives sleep = 1. -/
def NR_SLEEP : Nat := 1

/-- Rust `as u32` cast. -/
def u32cast (n : Nat) : Nat := n % 2 ^ 32

/-- Nanoseconds of `Duration::from_millis(ms)`. -/
def millisToNanos (ms : Nat) : Nat := ms * 1000000

/-- Deadline installed by `sys_sleep(ms, tf)`: the wait predicate fires
when `timer.read() >= start_time + Duration::from_millis(ms as u64)`.
Times are in nanoseconds. -/
def sysSleepDeadline (startNs ms : Nat) : Nat := startNs + millisToNanos ms

/-- Observable effect of one syscall dispatch, as far as the sleep path
is concerned. -/
inductive SysEffect where
  | sleepUntil (deadlineNs : Nat)
  | nonSleep

/-- Embedding of the `handle_syscall(num, tf)` dispatch restricted to its
sleep arm: `NR_SLEEP => sys_sleep(tf.x_registers[0] as u32, tf)`, where
`sys_sleep` parks the caller until `start + from_millis(ms)`.  `x0` is
the caller's `x_registers[0]` and `startNs` the timer value read at entry. -/
def handleSyscallSleep (num x0 startNs : Nat) : SysEffect :=
  if num = NR_SLEEP then .sleepUntil (sysSleepDeadline startNs (u32cast x0))
  else .nonSleep

/-! ## Bootloader receive loop, from src/boot/src/main.rs -/

/-- Activity-LED events the loop body can emit. -/
inductive LedEvt where
  | set
  | sleep75
  | clear
deriving DecidableEq

/-- Error kinds as the loop distinguishes them: `e.kind() != TimedOut`. -/
inductive RecvErrKind where
  | timedOut
  | other
deriving DecidableEq

/-- Outcome of one iteration of the `kmain` loop. -/
inductive BootStep where
  | jump (addr : Nat)
  | retry (led : List LedEvt)
deriving DecidableEq

/-- `BINARY_START_ADDR` from src/boot/src/main.rs. -/
def BINARY_START_ADDR : Nat := 0x80000

/-- The UART read timeout installed before the loop,
`uart.set_read_timeout(Duration::from_millis(750))`, in milliseconds. -/
def BOOT_READ_TIMEOUT_MS : Nat := 750

/-- One iteration of the bootloader's receive loop: on success jump to
the loaded binary; on a non-timeout error set the LED, spin 75 ms, clear
it, spin 75 ms, and retry; on a timeout retry with no LED activity. -/
def bootLoopStep (r : Except RecvErrKind Unit) : BootStep :=
  match r with
  | .ok _ => .jump BINARY_START_ADDR
  | .error e =>
    .retry (if e ≠ .timedOut then [.set, .sleep75, .clear, .sleep75] else [])

/-- Number of LED blinks in an event list: a blink is one `set` (the LED
turns on, then `clear` turns it off). -/
def blinkCount (l : List LedEvt) : Nat := l.count .set

/-- The fit test of the `alloc` scan: node `n` of a class with block
size `bS` can accommodate an aligned sub-block, i.e.
`start_of_alloc + target_size <= start + block_size`. -/
def fitsBlock (tA tS bS n : Nat) : Prop := align_up n tA + tS ≤ n + bS

/-- A fitting node whose start is already aligned
(`start == start_of_alloc`). -/
def exactFit (tA tS bS n : Nat) : Prop := fitsBlock tA tS bS n ∧ n = align_up n tA

/-- A concrete allocator state whose class-2 list holds the two blocks
`[40, 72)` and `[8, 40)`, in that scan order. -/
def binsCex : Bins := fun k => if k = 2 then [40, 8] else []

/-- A concrete user page table with two pages mapped, used to instantiate
the teardown count theorem. -/
def uptW : PT :=
  ptSetEntry (ptSetEntry ptNew USER_IMG_BASE (some (addrMask 100)))
    (USER_IMG_BASE + 65536) (some (addrMask 200))

/-- A wait predicate that never fires, regardless of the time, its
captured state, or the process context. -/
def awFalsePred : Nat → Nat → TF → Bool × Nat × Nat × Nat :=
  fun _ _ _ => (false, 0, 0, 0)

/-- A concrete two-process scheduler machine: PID 7 waits on
`awFalsePred`, PID 3 is ready, and the trap frame holds PID 3. -/
def schedMW : SchedM :=
  ⟨[⟨⟨7, 0, 0⟩, .waiting awFalsePred 0⟩, ⟨⟨3, 0, 0⟩, .ready⟩], ⟨3, 0, 0⟩⟩

/-- A concrete scheduler trace: one bare `switch_to`, one timer tick
(`switch(Ready)`), and one `switch` into a waiting state. -/
def schedOpsW : List SchedOp :=
  [.switchTo 0, .switch .ready 1, .switch (.waiting awFalsePred 5) 2]

/-! # Theorems

First the supporting lemmas for the bin allocator, then the claim
theorems. -/

/-! ## Allocator lemmas -/

theorem align_up_ge (addr align : Nat) (h : 0 < align) : addr ≤ align_up addr align := by
  unfold align_up
  split
  · exact Nat.le_refl _
  · have hm : addr % align < align := Nat.mod_lt _ h
    have hle : addr % align ≤ addr := Nat.mod_le _ _
    omega

theorem align_up_dvd (addr align : Nat) : align ∣ align_up addr align := by
  unfold align_up
  split
  · exact Nat.dvd_of_mod_eq_zero (by assumption)
  · have hd : addr - addr % align = align * (addr / align) := by
      have := Nat.div_add_mod addr align
      omega
    rw [hd]
    exact ⟨addr / align + 1, by ring⟩

theorem np2go_ge (f : Nat) : ∀ n, n ≤ f → n ≤ np2go f n := by
  induction f with
  | zero => intro n h; simp [np2go]; omega
  | succ f ih =>
    intro n h
    unfold np2go
    split
    · omega
    · have h2 : (n + 1) / 2 ≤ f := by omega
      have := ih ((n + 1) / 2) h2
      omega

theorem nextPow2_ge (n : Nat) : n ≤ nextPow2 n := np2go_ge n n (Nat.le_refl n)

theorem targetSize_ge_size (size align : Nat) : size ≤ targetSize size align := by
  unfold targetSize
  have h := nextPow2_ge size
  split
  · split <;> omega
  · split <;> omega

theorem targetAlign_pos (align : Nat) : 0 < targetAlign align := by
  unfold targetAlign; split <;> omega

theorem targetAlign_dvd (align j : Nat) (h : align = 2 ^ j) :
    align ∣ targetAlign align := by
  unfold targetAlign
  split
  · exact Nat.dvd_refl _
  · subst h
    have hj3 : j ≤ 3 := by
      by_contra hc
      have h4 : 4 ≤ j := by omega
      have : 2 ^ 4 ≤ 2 ^ j := Nat.pow_le_pow_right (by omega) h4
      omega
    have h3 : j + (3 - j) = 3 := by omega
    have h8 : 2 ^ j * 2 ^ (3 - j) = 8 := by
      rw [← Nat.pow_add, h3]
    exact ⟨2 ^ (3 - j), h8.symm⟩

theorem carveGo_succ_pos (bs e f curr : Nat) (h : 0 < bs ∧ curr + bs ≤ e) :
    carveGo bs e (f + 1) curr =
      (curr :: (carveGo bs e f (curr + bs)).1, (carveGo bs e f (curr + bs)).2) := by
  show (if 0 < bs ∧ curr + bs ≤ e then
      (curr :: (carveGo bs e f (curr + bs)).1, (carveGo bs e f (curr + bs)).2)
    else ([], curr)) = _
  rw [if_pos h]

theorem carveGo_succ_neg (bs e f curr : Nat) (h : ¬(0 < bs ∧ curr + bs ≤ e)) :
    carveGo bs e (f + 1) curr = ([], curr) := by
  show (if 0 < bs ∧ curr + bs ≤ e then
      (curr :: (carveGo bs e f (curr + bs)).1, (carveGo bs e f (curr + bs)).2)
    else ([], curr)) = _
  rw [if_neg h]

theorem carveGo_snd_ge (bs e : Nat) : ∀ f curr, curr ≤ (carveGo bs e f curr).2 := by
  intro f
  induction f with
  | zero => intro curr; simp [carveGo]
  | succ f ih =>
    intro curr
    by_cases h : 0 < bs ∧ curr + bs ≤ e
    · rw [carveGo_succ_pos bs e f curr h]
      have := ih (curr + bs)
      simp only []
      omega
    · rw [carveGo_succ_neg bs e f curr h]

theorem carveGo_mem (bs e : Nat) :
    ∀ f curr a, a ∈ (carveGo bs e f curr).1 →
      curr ≤ a ∧ a + bs ≤ e ∧ a + bs ≤ (carveGo bs e f curr).2 := by
  intro f
  induction f with
  | zero => intro curr a h; simp [carveGo] at h
  | succ f ih =>
    intro curr a h
    by_cases hcond : 0 < bs ∧ curr + bs ≤ e
    · rw [carveGo_succ_pos bs e f curr hcond] at h ⊢
      simp only [List.mem_cons] at h
      rcases h with rfl | h
      · have := carveGo_snd_ge bs e f (a + bs)
        exact ⟨Nat.le_refl _, hcond.2, this⟩
      · have := ih (curr + bs) a h
        exact ⟨by omega, this.2.1, this.2.2⟩
    · rw [carveGo_succ_neg bs e f curr hcond] at h
      simp at h

theorem carveGo_pairwise (bs e : Nat) :
    ∀ f curr, List.Pairwise (fun a b => a + bs ≤ b) (carveGo bs e f curr).1 := by
  intro f
  induction f with
  | zero => intro curr; simp [carveGo]
  | succ f ih =>
    intro curr
    by_cases hcond : 0 < bs ∧ curr + bs ≤ e
    · rw [carveGo_succ_pos bs e f curr hcond]
      refine List.Pairwise.cons ?_ (ih (curr + bs))
      intro b hb
      exact (carveGo_mem bs e f (curr + bs) b hb).1
    · rw [carveGo_succ_neg bs e f curr hcond]
      simp

theorem absorbPushes_mem :
    ∀ b curr e k a, (k, a) ∈ absorbPushes b curr e →
      k ≤ b ∧ curr ≤ a ∧ a + 2 ^ (k + 3) ≤ e := by
  intro b
  induction b with
  | zero =>
    intro curr e k a h
    simp only [absorbPushes, List.mem_map] at h
    obtain ⟨x, hx, hxa⟩ := h
    injection hxa with h1 h2
    subst h1
    subst h2
    have := carveGo_mem 8 e (e - curr) curr _ hx
    exact ⟨Nat.le_refl 0, this.1, this.2.1⟩
  | succ b ih =>
    intro curr e k a h
    simp only [absorbPushes, List.mem_append, List.mem_map] at h
    rcases h with ⟨x, hx, hxa⟩ | h
    · injection hxa with h1 h2
      subst h1
      subst h2
      have := carveGo_mem (2 ^ (b + 1 + 3)) e (e - curr) curr _ hx
      exact ⟨Nat.le_refl _, this.1, this.2.1⟩
    · have hcge := carveGo_snd_ge (2 ^ (b + 1 + 3)) e (e - curr) curr
      have := ih (carveRun (2 ^ (b + 1 + 3)) e curr).2 e k a h
      refine ⟨by omega, ?_, this.2.2⟩
      have h2 := this.2.1
      unfold carveRun at h2
      omega

theorem absorbPushes_pairwise :
    ∀ b curr e, List.Pairwise (fun p q : Nat × Nat => p.2 + 2 ^ (p.1 + 3) ≤ q.2)
      (absorbPushes b curr e) := by
  intro b
  induction b with
  | zero =>
    intro curr e
    unfold absorbPushes
    rw [List.pairwise_map]
    refine (carveGo_pairwise 8 e (e - curr) curr).imp ?_
    intro a c h
    simpa using h
  | succ b ih =>
    intro curr e
    unfold absorbPushes
    rw [List.pairwise_append]
    refine ⟨?_, ih _ e, ?_⟩
    · rw [List.pairwise_map]
      refine (carveGo_pairwise _ e (e - curr) curr).imp ?_
      intro a c h
      simpa using h
    · intro p hp q hq
      simp only [List.mem_map] at hp
      obtain ⟨x, hx, hxp⟩ := hp
      subst hxp
      have hm := carveGo_mem (2 ^ (b + 1 + 3)) e (e - curr) curr _ hx
      have hq2 := absorbPushes_mem b _ e q.1 q.2 (by simpa using hq)
      have : (carveRun (2 ^ (b + 1 + 3)) e curr).2 ≤ q.2 := hq2.2.1
      unfold carveRun at this
      simp only []
      omega

theorem applyPushList_mem (ps : List (Nat × Nat)) :
    ∀ bins k a, a ∈ applyPushList bins ps k → (k, a) ∈ ps ∨ a ∈ bins k := by
  induction ps with
  | nil => intro bins k a h; exact Or.inr h
  | cons p t ih =>
    intro bins k a h
    have := ih (pushNode bins p.1 p.2) k a h
    rcases this with h1 | h1
    · exact Or.inl (List.mem_cons_of_mem _ h1)
    · unfold pushNode at h1
      by_cases hk : k = p.1
      · rw [if_pos hk] at h1
        rcases List.mem_cons.mp h1 with rfl | h2
        · exact Or.inl (by simp [hk])
        · exact Or.inr h2
      · rw [if_neg hk] at h1
        exact Or.inr h1

theorem absorbMem_inv (S E s e : Nat) (bins : Bins) (hinv : BinsInv S E bins)
    (hs : S ≤ s) (he : e ≤ E) : BinsInv S E (absorbMem bins s e) := by
  intro k a h
  rcases applyPushList_mem _ bins k a h with h1 | h1
  · have := absorbPushes_mem 29 s e k a h1
    exact ⟨by omega, by omega⟩
  · exact hinv k a h1

theorem eraseBin_inv (S E : Nat) (bins : Bins) (k idx : Nat)
    (hinv : BinsInv S E bins) : BinsInv S E (eraseBin bins k idx) := by
  intro k2 a h
  unfold eraseBin at h
  by_cases hk : k2 = k
  · rw [if_pos hk] at h
    exact hinv k2 a (hk ▸ List.eraseIdx_subset _ _ h)
  · rw [if_neg hk] at h
    exact hinv k2 a h

theorem scanBin_fit (tA tS bS : Nat) :
    ∀ nodes ex idx, scanBin tA tS bS nodes = some (ex, idx) →
      ∃ n, nodes[idx]? = some n ∧ align_up n tA + tS ≤ n + bS ∧
        (ex = true → n = align_up n tA) := by
  intro nodes
  induction nodes with
  | nil => intro ex idx h; simp [scanBin] at h
  | cons n rest ih =>
    intro ex idx h
    unfold scanBin at h
    by_cases hfit : align_up n tA + tS ≤ n + bS
    · rw [if_pos hfit] at h
      by_cases hex : n = align_up n tA
      · rw [if_pos hex] at h
        injection h with h2
        injection h2 with h3 h4
        subst h3
        subst h4
        exact ⟨n, by simp, hfit, fun _ => hex⟩
      · rw [if_neg hex] at h
        cases hrec : scanBin tA tS bS rest with
        | some v =>
          obtain ⟨ex2, j⟩ := v
          rw [hrec] at h
          injection h with h2
          injection h2 with h3 h4
          subst h3
          subst h4
          obtain ⟨m, hm, hm2, hm3⟩ := ih ex2 j hrec
          exact ⟨m, by simpa using hm, hm2, hm3⟩
        | none =>
          rw [hrec] at h
          injection h with h2
          injection h2 with h3 h4
          subst h3
          subst h4
          exact ⟨n, by simp, hfit, by simp⟩
    · rw [if_neg hfit] at h
      cases hrec : scanBin tA tS bS rest with
      | some v =>
        obtain ⟨ex2, j⟩ := v
        rw [hrec] at h
        injection h with h2
        injection h2 with h3 h4
        subst h3
        subst h4
        obtain ⟨m, hm, hm2, hm3⟩ := ih ex2 j hrec
        exact ⟨m, by simpa using hm, hm2, hm3⟩
      | none =>
        rw [hrec] at h
        exact absurd h (by simp)

theorem allocFrom_none (tS tA : Nat) :
    ∀ r bin bins bins2, allocFrom tS tA r bin bins = (none, bins2) → bins2 = bins := by
  intro r
  induction r with
  | zero =>
    intro bin bins bins2 h
    unfold allocFrom at h
    injection h with h1 h2
    exact h2.symm
  | succ r ih =>
    intro bin bins bins2 h
    unfold allocFrom at h
    split at h
    · split at h
      · split at h
        · exact absurd (congrArg Prod.fst h) (by simp)
        · exact absurd (congrArg Prod.fst h) (by simp)
      · injection h with h1 h2
        exact h2.symm
    · exact ih (bin + 1) bins bins2 h

theorem allocFrom_some (s e tS tA : Nat) (htA : 0 < tA) :
    ∀ r bin bins p bins2, BinsInv s e bins →
      allocFrom tS tA r bin bins = (some p, bins2) →
      s ≤ p ∧ p + tS ≤ e ∧ tA ∣ p ∧ BinsInv s e bins2 := by
  intro r
  induction r with
  | zero =>
    intro bin bins p bins2 hinv h
    unfold allocFrom at h
    exact absurd (congrArg Prod.fst h) (by simp)
  | succ r ih =>
    intro bin bins p bins2 hinv h
    unfold allocFrom at h
    split at h
    · rename_i ex idx hscan
      split at h
      · rename_i n hget
        have hn : n ∈ bins bin := List.getElem?_mem hget
        have hbound := hinv bin n hn
        obtain ⟨m, hm, hfit, _⟩ :=
          scanBin_fit tA tS (2 ^ (bin + 3)) (bins bin) ex idx hscan
        rw [hget] at hm
        injection hm with hm
        subst hm
        have hsoa : n ≤ align_up n tA := align_up_ge n tA htA
        have hinv1 : BinsInv s e (eraseBin bins bin idx) :=
          eraseBin_inv s e bins bin idx hinv
        split at h
        · injection h with h1 h2
          injection h1 with h1
          subst h1
          subst h2
          refine ⟨by omega, by omega, align_up_dvd n tA, ?_⟩
          exact absorbMem_inv s e _ _ _ hinv1 (by omega) (by omega)
        · injection h with h1 h2
          injection h1 with h1
          subst h1
          subst h2
          refine ⟨by omega, by omega, align_up_dvd n tA, ?_⟩
          refine absorbMem_inv s e _ _ _ ?_ (by omega) (by omega)
          exact absorbMem_inv s e _ _ _ hinv1 (by omega) (by omega)
      · exact absurd (congrArg Prod.fst h) (by simp)
    · exact ih (bin + 1) bins p bins2 hinv h

theorem allocStep_inv (s e : Nat) (st : AllocState) (op : AllocOp)
    (hinv : AllocInv s e st) : AllocInv s e (allocStep st op).1 := by
  obtain ⟨hbins, hlive⟩ := hinv
  cases op with
  | alloc size align =>
    simp only [allocStep]
    cases hr : (binAlloc st.bins size align).1 with
    | some p =>
      have hspec := allocFrom_some s e (targetSize size align) (targetAlign align)
        (targetAlign_pos align) 30 0 st.bins p (binAlloc st.bins size align).2 hbins
        (by rw [← hr]; rfl)
      refine ⟨hspec.2.2.2, ?_⟩
      intro q sz al hq
      simp only [List.mem_cons] at hq
      rcases hq with heq | hq
      · injection heq with h1 h2
        subst h1
        injection h2 with h3 h4
        subst h3
        subst h4
        exact ⟨hspec.1, hspec.2.1⟩
      · exact hlive q sz al hq
    | none =>
      have heq : (binAlloc st.bins size align).2 = st.bins :=
        allocFrom_none (targetSize size align) (targetAlign align) 30 0 st.bins _
          (by rw [← hr]; rfl)
      refine ⟨?_, hlive⟩
      show BinsInv s e (binAlloc st.bins size align).2
      rw [heq]
      exact hbins
  | dealloc ptr size align =>
    simp only [allocStep]
    by_cases hmem : (ptr, size, align) ∈ st.live
    · rw [if_pos hmem]
      have hb := hlive ptr size align hmem
      refine ⟨?_, ?_⟩
      · exact absorbMem_inv s e _ _ _ hbins (by omega) (by omega)
      · intro q sz al hq
        exact hlive q sz al (List.mem_of_mem_erase hq)
    · rw [if_neg hmem]
      exact ⟨hbins, hlive⟩

theorem binsEmpty_inv (s e : Nat) : BinsInv s e binsEmpty := by
  intro k a h
  simp [binsEmpty] at h

theorem allocRun_inv (s e : Nat) (ops : List AllocOp) :
    AllocInv s e (allocRun s e ops) := by
  have hgen : ∀ (l : List AllocOp) (st : AllocState), AllocInv s e st →
      AllocInv s e (l.foldl (fun st2 op => (allocStep st2 op).1) st) := by
    intro l
    induction l with
    | nil => intro st h; exact h
    | cons op t ih =>
      intro st h
      rw [List.foldl_cons]
      exact ih _ (allocStep_inv s e st op h)
  have hinit : AllocInv s e (allocInit s e) := by
    refine ⟨absorbMem_inv s e s e binsEmpty (binsEmpty_inv s e) (Nat.le_refl s)
      (Nat.le_refl e), ?_⟩
    intro p sz al h
    simp [allocInit] at h
  exact hgen ops _ hinit

theorem allocStep_alloc_snd (st : AllocState) (size align : Nat) :
    (allocStep st (.alloc size align)).2 = (binAlloc st.bins size align).1 := by
  cases hx : (binAlloc st.bins size align).1 <;> simp [allocStep, hx]

/-- C1: for every sequence of allocator operations with power-of-two
alignments up to 4 GiB, whenever `Allocator::alloc` returns a non-null
pointer `p` for a layout `(size, align)`, `p` is a multiple of `align`
and the byte range `[p, p + size)` lies entirely within the managed range
`[s, e)` given to `Allocator::new`. -/
theorem alloc_pointer_aligned_within_range
    (ops : List AllocOp) (s e size align p : Nat)
    (_hops : ∀ op ∈ ops, opAlignOk op)
    (hal : ∃ j, j ≤ 32 ∧ align = 2 ^ j)
    (h : (allocStep (allocRun s e ops) (.alloc size align)).2 = some p) :
    p % align = 0 ∧ s ≤ p ∧ p + size ≤ e := by
  obtain ⟨j, hj, hja⟩ := hal
  have hinv := allocRun_inv s e ops
  rw [allocStep_alloc_snd] at h
  have hspec := allocFrom_some s e (targetSize size align) (targetAlign align)
    (targetAlign_pos align) 30 0 (allocRun s e ops).bins p
    (binAlloc (allocRun s e ops).bins size align).2 hinv.1
    (by rw [← h]; rfl)
  have hdvd : align ∣ p := dvd_trans (targetAlign_dvd align j hja) hspec.2.2.1
  have hsize := targetSize_ge_size size align
  exact ⟨Nat.mod_eq_zero_of_dvd hdvd, hspec.1, by omega⟩

/-- Witness for C1: on the fresh range `[8, 40)` the first alloc of a
`(size 32, align 8)` layout returns pointer 8, which is 8-aligned and
lies within the managed range. -/
theorem alloc_pointer_aligned_within_range_witness :
    8 % 8 = 0 ∧ 8 ≤ 8 ∧ 8 + 32 ≤ 40 :=
  alloc_pointer_aligned_within_range [] 8 40 32 8 8
    (by intro op hop; simp at hop) ⟨3, by omega, rfl⟩ (by rfl)

/-- C2 counterexample: absorbing the byte range `[8, 24)` pushes the
block `[8, 24)` of size 16 onto class 1's free list, and its start
address 8 is not aligned to the block size `2^(1+3) = 16`; the claim's
alignment invariant fails already for `Allocator::new(8, 24)`. -/
theorem absorb_unaligned_block_cex :
    (1, 8) ∈ absorbPushes 29 8 24 ∧ (allocatorNew 8 24) 1 = [8] ∧
      ¬ (2 ^ (1 + 3) ∣ 8) := by
  refine ⟨by decide, by decide, by decide⟩

/-- C2 amended: `absorb_memory(s, e)` carves `[s, e)` only into
power-of-two-sized blocks — a block pushed onto class `k` (with `k ≤ 29`)
covers exactly the bytes `[a, a + 2^(k+3)) ⊆ [s, e)`, and the carved
blocks are pairwise disjoint (each ends before the next begins) — but a
block's start address need not be aligned to its own size. -/
theorem absorb_carves_power_of_two_blocks (s e k a : Nat)
    (h : (k, a) ∈ absorbPushes 29 s e) :
    k ≤ 29 ∧ s ≤ a ∧ a + 2 ^ (k + 3) ≤ e ∧
    List.Pairwise (fun p q : Nat × Nat => p.2 + 2 ^ (p.1 + 3) ≤ q.2)
      (absorbPushes 29 s e) := by
  have h1 := absorbPushes_mem 29 s e k a h
  exact ⟨h1.1, h1.2.1, h1.2.2, absorbPushes_pairwise 29 s e⟩

/-- Witness for the amended C2 on the range `[8, 24)` and its class-1
block at 8. -/
theorem absorb_carves_power_of_two_blocks_witness :
    (1 : Nat) ≤ 29 ∧ 8 ≤ 8 ∧ 8 + 2 ^ (1 + 3) ≤ 24 ∧
    List.Pairwise (fun p q : Nat × Nat => p.2 + 2 ^ (p.1 + 3) ≤ q.2)
      (absorbPushes 29 8 24) :=
  absorb_carves_power_of_two_blocks 8 24 1 8 (by decide)

theorem scanBin_none_no_fit (tA tS bS : Nat) :
    ∀ nodes, scanBin tA tS bS nodes = none →
      ∀ n ∈ nodes, ¬ fitsBlock tA tS bS n := by
  intro nodes
  induction nodes with
  | nil => intro _ n hn; simp at hn
  | cons n rest ih =>
    intro h m hm
    unfold scanBin at h
    by_cases hfit : align_up n tA + tS ≤ n + bS
    · rw [if_pos hfit] at h
      by_cases hex : n = align_up n tA
      · rw [if_pos hex] at h
        exact absurd h (by simp)
      · rw [if_neg hex] at h
        cases hrec : scanBin tA tS bS rest with
        | some v => obtain ⟨a, b⟩ := v; rw [hrec] at h; exact absurd h (by simp)
        | none => rw [hrec] at h; exact absurd h (by simp)
    · rw [if_neg hfit] at h
      cases hrec : scanBin tA tS bS rest with
      | some v => obtain ⟨a, b⟩ := v; rw [hrec] at h; exact absurd h (by simp)
      | none =>
        rcases List.mem_cons.mp hm with rfl | hm2
        · exact hfit
        · exact ih hrec m hm2

theorem scanBin_exact_first (tA tS bS : Nat) :
    ∀ nodes idx, scanBin tA tS bS nodes = some (true, idx) →
      ∀ j m, j < idx → nodes[j]? = some m → ¬ exactFit tA tS bS m := by
  intro nodes
  induction nodes with
  | nil => intro idx h; simp [scanBin] at h
  | cons n rest ih =>
    intro idx h j m hj hget
    unfold scanBin at h
    by_cases hfit : align_up n tA + tS ≤ n + bS
    · rw [if_pos hfit] at h
      by_cases hex : n = align_up n tA
      · rw [if_pos hex] at h
        injection h with h2
        injection h2 with h3 h4
        omega
      · rw [if_neg hex] at h
        cases hrec : scanBin tA tS bS rest with
        | some v =>
          obtain ⟨ex2, j2⟩ := v
          rw [hrec] at h
          injection h with h2
          injection h2 with h3 h4
          subst h3
          subst h4
          cases j with
          | zero =>
            simp only [List.getElem?_cons_zero] at hget
            injection hget with hget
            subst hget
            intro hcon
            exact hex hcon.2
          | succ j3 =>
            simp only [List.getElem?_cons_succ] at hget
            exact ih j2 hrec j3 m (by omega) hget
        | none =>
          rw [hrec] at h
          injection h with h2
          injection h2 with h3 h4
          exact absurd h3.symm (by simp)
    · rw [if_neg hfit] at h
      cases hrec : scanBin tA tS bS rest with
      | some v =>
        obtain ⟨ex2, j2⟩ := v
        rw [hrec] at h
        injection h with h2
        injection h2 with h3 h4
        subst h3
        subst h4
        cases j with
        | zero =>
          simp only [List.getElem?_cons_zero] at hget
          injection hget with hget
          subst hget
          intro hcon
          exact hfit hcon.1
        | succ j3 =>
          simp only [List.getElem?_cons_succ] at hget
          exact ih j2 hrec j3 m (by omega) hget
      | none =>
        rw [hrec] at h
        exact absurd h (by simp)

theorem scanBin_last_candidate (tA tS bS : Nat) :
    ∀ nodes idx, scanBin tA tS bS nodes = some (false, idx) →
      (∀ m ∈ nodes, ¬ exactFit tA tS bS m) ∧
      (∀ j m, nodes[j]? = some m → fitsBlock tA tS bS m → j ≤ idx) := by
  intro nodes
  induction nodes with
  | nil => intro idx h; simp [scanBin] at h
  | cons n rest ih =>
    intro idx h
    unfold scanBin at h
    by_cases hfit : align_up n tA + tS ≤ n + bS
    · rw [if_pos hfit] at h
      by_cases hex : n = align_up n tA
      · rw [if_pos hex] at h
        injection h with h2
        injection h2 with h3 h4
        exact absurd h3.symm (by simp)
      · rw [if_neg hex] at h
        cases hrec : scanBin tA tS bS rest with
        | some v =>
          obtain ⟨ex2, j2⟩ := v
          rw [hrec] at h
          injection h with h2
          injection h2 with h3 h4
          subst h3
          subst h4
          obtain ⟨hnoex, hbound⟩ := ih j2 hrec
          constructor
          · intro m hm
            rcases List.mem_cons.mp hm with rfl | hm2
            · intro hcon; exact hex hcon.2
            · exact hnoex m hm2
          · intro j m hget hf
            cases j with
            | zero => omega
            | succ j3 =>
              simp only [List.getElem?_cons_succ] at hget
              have := hbound j3 m hget hf
              omega
        | none =>
          rw [hrec] at h
          injection h with h2
          injection h2 with h3 h4
          subst h4
          constructor
          · intro m hm
            rcases List.mem_cons.mp hm with rfl | hm2
            · intro hcon; exact hex hcon.2
            · intro hcon
              exact scanBin_none_no_fit tA tS bS rest hrec m hm2 hcon.1
          · intro j m hget hf
            cases j with
            | zero => omega
            | succ j3 =>
              simp only [List.getElem?_cons_succ] at hget
              exact absurd hf (scanBin_none_no_fit tA tS bS rest hrec m
                (List.getElem?_mem hget))
    · rw [if_neg hfit] at h
      cases hrec : scanBin tA tS bS rest with
      | some v =>
        obtain ⟨ex2, j2⟩ := v
        rw [hrec] at h
        injection h with h2
        injection h2 with h3 h4
        subst h3
        subst h4
        obtain ⟨hnoex, hbound⟩ := ih j2 hrec
        constructor
        · intro m hm
          rcases List.mem_cons.mp hm with rfl | hm2
          · intro hcon; exact hfit hcon.1
          · exact hnoex m hm2
        · intro j m hget hf
          cases j with
          | zero =>
            simp only [List.getElem?_cons_zero] at hget
            injection hget with hget
            subst hget
            exact absurd hf hfit
          | succ j3 =>
            simp only [List.getElem?_cons_succ] at hget
            have := hbound j3 m hget hf
            omega
      | none =>
        rw [hrec] at h
        exact absurd h (by simp)

/-- C3 amended: within the size class at which the scan of
`Allocator::alloc` succeeds, the node popped is the first node whose
start is already aligned (exact-start fit), in which case the tail
`[n + target_size, n + class_size)` is re-absorbed and `n` returned; if
the class has no exact-start fit, the node popped is the LAST node
scanned that can accommodate the aligned sub-block (each new candidate
overwrites the previous `good_node`), both the head `[n, aligned_start)`
and the tail `[aligned_start + target_size, n + class_size)` are
re-absorbed, and the aligned start is returned. -/
theorem alloc_prefers_exact_else_last_candidate
    (tS tA r bin : Nat) (bins : Bins) (ex : Bool) (idx n : Nat)
    (hscan : scanBin tA tS (2 ^ (bin + 3)) (bins bin) = some (ex, idx))
    (hn : (bins bin)[idx]? = some n) :
    allocFrom tS tA (r + 1) bin bins =
      (some (align_up n tA),
        if ex then
          absorbMem (eraseBin bins bin idx) (align_up n tA + tS) (n + 2 ^ (bin + 3))
        else
          absorbMem (absorbMem (eraseBin bins bin idx) n (align_up n tA))
            (align_up n tA + tS) (n + 2 ^ (bin + 3))) ∧
    fitsBlock tA tS (2 ^ (bin + 3)) n ∧
    (ex = true → n = align_up n tA ∧
      ∀ j m, j < idx → (bins bin)[j]? = some m →
        ¬ exactFit tA tS (2 ^ (bin + 3)) m) ∧
    (ex = false → n ≠ align_up n tA ∧
      (∀ m, m ∈ bins bin → ¬ exactFit tA tS (2 ^ (bin + 3)) m) ∧
      (∀ j m, (bins bin)[j]? = some m → fitsBlock tA tS (2 ^ (bin + 3)) m →
        j ≤ idx)) := by
  obtain ⟨m, hm, hfit, hexact⟩ := scanBin_fit tA tS (2 ^ (bin + 3)) (bins bin) ex idx hscan
  rw [hn] at hm
  injection hm with hm
  subst hm
  refine ⟨?_, hfit, ?_, ?_⟩
  · show (match scanBin tA tS (2 ^ (bin + 3)) (bins bin) with
      | some (ex, idx) =>
        match (bins bin)[idx]? with
        | some n =>
          if ex then
            (some (align_up n tA),
              absorbMem (eraseBin bins bin idx) (align_up n tA + tS)
                (n + 2 ^ (bin + 3)))
          else
            (some (align_up n tA),
              absorbMem (absorbMem (eraseBin bins bin idx) n (align_up n tA))
                (align_up n tA + tS) (n + 2 ^ (bin + 3)))
        | none => (none, bins)
      | none => allocFrom tS tA r (bin + 1) bins) = _
    rw [hscan]
    dsimp only
    rw [hn]
    dsimp only
    cases ex
    · simp
    · simp
  · intro hex
    subst hex
    exact ⟨hexact rfl, scanBin_exact_first tA tS (2 ^ (bin + 3)) (bins bin) idx hscan⟩
  · intro hex
    subst hex
    obtain ⟨hnoex, hbound⟩ :=
      scanBin_last_candidate tA tS (2 ^ (bin + 3)) (bins bin) idx hscan
    refine ⟨?_, hnoex, hbound⟩
    intro hcon
    exact hnoex n (List.getElem?_mem hn) ⟨hfit, hcon⟩

/-- Witness for the amended C3 on the class-2 list `[40, 8]` with layout
`(size 8, align 16)`: the scan reports the last candidate, at index 1. -/
theorem alloc_prefers_exact_else_last_candidate_witness :
    allocFrom 16 16 (27 + 1) 2 binsCex =
      (some (align_up 8 16),
        if false then
          absorbMem (eraseBin binsCex 2 1) (align_up 8 16 + 16) (8 + 2 ^ (2 + 3))
        else
          absorbMem (absorbMem (eraseBin binsCex 2 1) 8 (align_up 8 16))
            (align_up 8 16 + 16) (8 + 2 ^ (2 + 3))) ∧
    fitsBlock 16 16 (2 ^ (2 + 3)) 8 ∧
    (false = true → 8 = align_up 8 16 ∧
      ∀ j m, j < 1 → (binsCex 2)[j]? = some m →
        ¬ exactFit 16 16 (2 ^ (2 + 3)) m) ∧
    (false = false → (8 : Nat) ≠ align_up 8 16 ∧
      (∀ m, m ∈ binsCex 2 → ¬ exactFit 16 16 (2 ^ (2 + 3)) m) ∧
      (∀ j m, (binsCex 2)[j]? = some m → fitsBlock 16 16 (2 ^ (2 + 3)) m →
        j ≤ 1)) :=
  alloc_prefers_exact_else_last_candidate 16 16 27 2 binsCex false 1 8
    (by decide) (by decide)

/-- C3 counterexample: on the class-2 list `[40, 8]` with layout
`(size 8, align 16)` the FIRST node scanned that can accommodate the
allocation is 40 (aligned start 48), yet `Allocator::alloc` returns 16 —
the aligned start of node 8, the LAST candidate scanned — so the claim's
"first node scanned" selection is wrong. -/
theorem alloc_first_candidate_cex :
    (binsCex 2)[0]? = some 40 ∧
    align_up 40 16 + 16 ≤ 40 + 2 ^ (2 + 3) ∧
    (40 : Nat) ≠ align_up 40 16 ∧
    align_up 40 16 = 48 ∧
    (binAlloc binsCex 8 16).1 = some 16 ∧
    (16 : Nat) ≠ 48 := by
  refine ⟨by decide, by decide, by decide, by decide, by decide, by decide⟩

/-! ## Page-table lemmas and claims -/

theorem ptSetEntry_l2tgt (pt : PT) (va : Nat) (e : Option Nat) :
    (ptSetEntry pt va e).l2tgt = pt.l2tgt := by
  unfold ptSetEntry
  cases pt.l2tgt (l2fin va) <;> rfl

theorem ptSetEntry_wired (pt : PT) (va : Nat) (e : Option Nat)
    (hw : pt.l2tgt = fun i => some i) :
    ptSetEntry pt va e =
      ⟨pt.l2tgt, fun i j => if i = l2fin va ∧ j = l3fin va then e
        else pt.entries i j⟩ := by
  unfold ptSetEntry
  rw [hw]

theorem ptIsValid_wired (pt : PT) (va : Nat) (hw : pt.l2tgt = fun i => some i) :
    ptIsValid pt va = (pt.entries (l2fin va) (l3fin va)).isSome := by
  unfold ptIsValid
  rw [hw]

/-- C4 amended: `UserPageTable::alloc(va, perm)` panics when
`va < USER_IMG_BASE`, when `va` is already mapped, and when the frame
allocator returns null; otherwise it writes a valid L3 entry so that
`is_valid(va)` afterwards returns true, and `is_valid(va2)` is unchanged
for every `va2` whose translation indices — bit 29 and bits 28:16, the
only bits `PageTable::locate` inspects — differ from those of `va`.
(Addresses sharing both indices with `va` alias the same L3 slot and
report valid as well; see the counterexample.)  The hypothesis `hw` is
the wiring `PageTable::new` establishes: both L2 entries valid, pointing
at the table's own two L3 tables. -/
theorem upt_alloc_panics_and_maps (pt : PT) (va : Nat) (perm : PagePerm)
    (frame : Option Nat) (hw : pt.l2tgt = fun i => some i) :
    (va < USER_IMG_BASE → uptAlloc pt va perm frame = .panicBadVA) ∧
    (¬ va < USER_IMG_BASE → ptIsValid pt va = true →
      uptAlloc pt va perm frame = .panicMapped) ∧
    (¬ va < USER_IMG_BASE → ptIsValid pt va = false → frame = none →
      uptAlloc pt va perm frame = .panicNoMem) ∧
    (∀ q, ¬ va < USER_IMG_BASE → ptIsValid pt va = false → frame = some q →
      uptAlloc pt va perm frame = .ok (ptSetEntry pt va (some (addrMask q))) q ∧
      ptIsValid (ptSetEntry pt va (some (addrMask q))) va = true ∧
      ∀ va2, (l2idx va2 ≠ l2idx va ∨ l3idx va2 ≠ l3idx va) →
        ptIsValid (ptSetEntry pt va (some (addrMask q))) va2 =
          ptIsValid pt va2) := by
  refine ⟨?_, ?_, ?_, ?_⟩
  · intro hlt
    unfold uptAlloc
    rw [if_pos hlt]
  · intro hlt hv
    unfold uptAlloc
    rw [if_neg hlt, if_pos hv]
  · intro hlt hv hf
    unfold uptAlloc
    rw [if_neg hlt, if_neg (by rw [hv]; simp), hf]
  · intro q hlt hv hf
    refine ⟨?_, ?_, ?_⟩
    · unfold uptAlloc
      rw [if_neg hlt, if_neg (by rw [hv]; simp), hf]
    · rw [ptIsValid_wired _ _ (by rw [ptSetEntry_l2tgt]; exact hw),
        ptSetEntry_wired pt va _ hw]
      simp
    · intro va2 hdiff
      have hne : ¬ (l2fin va2 = l2fin va ∧ l3fin va2 = l3fin va) := by
        intro hcon
        rcases hdiff with hd | hd
        · exact hd (congrArg Fin.val hcon.1)
        · exact hd (congrArg Fin.val hcon.2)
      rw [ptIsValid_wired _ _ (by rw [ptSetEntry_l2tgt]; exact hw),
        ptSetEntry_wired pt va _ hw, ptIsValid_wired _ _ hw]
      simp only [if_neg hne]

/-- Witness for the amended C4: allocating `USER_IMG_BASE` on a fresh
user table with frame 77 succeeds, maps it, and leaves index-distinct
addresses unchanged. -/
theorem upt_alloc_panics_and_maps_witness :
    uptAlloc ptNew USER_IMG_BASE .RW (some 77) =
      .ok (ptSetEntry ptNew USER_IMG_BASE (some (addrMask 77))) 77 ∧
    ptIsValid (ptSetEntry ptNew USER_IMG_BASE (some (addrMask 77)))
      USER_IMG_BASE = true ∧
    ∀ va2, (l2idx va2 ≠ l2idx USER_IMG_BASE ∨ l3idx va2 ≠ l3idx USER_IMG_BASE) →
      ptIsValid (ptSetEntry ptNew USER_IMG_BASE (some (addrMask 77))) va2 =
        ptIsValid ptNew va2 :=
  (upt_alloc_panics_and_maps ptNew USER_IMG_BASE .RW (some 77) rfl).2.2.2 77
    (by decide) (by rfl) rfl

/-- C4 counterexample: after a legitimate `alloc(USER_IMG_BASE, _)` on a
fresh user table, the page-aligned address `0xFFFFFFFF80000000` — never
alloced, and distinct from `USER_IMG_BASE` — reports `is_valid = true`,
because `PageTable::locate` inspects only bit 29 and bits 28:16 of the
virtual address and both addresses share those bits.  This falsifies the
claim that `is_valid(va2)` remains false for every page-aligned `va2`
never alloced on the table. -/
theorem upt_foreign_va_valid_cex :
    uptAlloc ptNew USER_IMG_BASE .RW (some 0) =
      .ok (ptSetEntry ptNew USER_IMG_BASE (some (addrMask 0))) 0 ∧
    0xFFFFFFFF80000000 % PAGE_SIZE = 0 ∧
    (0xFFFFFFFF80000000 : Nat) ≠ USER_IMG_BASE ∧
    ptIsValid ptNew 0xFFFFFFFF80000000 = false ∧
    ptIsValid (ptSetEntry ptNew USER_IMG_BASE (some (addrMask 0)))
      0xFFFFFFFF80000000 = true := by
  refine ⟨by rfl, by decide, by decide, by rfl, by rfl⟩

/-! ## Teardown counting (C5) -/

theorem filterMap_length_update {n : Nat} (f : Fin n → Option Nat) (j0 : Fin n)
    (x : Nat) (hf : f j0 = none) :
    ∀ l : List (Fin n), l.Nodup → j0 ∈ l →
      (l.filterMap (fun j => if j = j0 then some x else f j)).length =
        (l.filterMap f).length + 1 := by
  intro l
  induction l with
  | nil => intro _ h; simp at h
  | cons a t ih =>
    intro hnd hmem
    by_cases ha : a = j0
    · subst ha
      have hj0t : a ∉ t := (List.nodup_cons.mp hnd).1
      have hcongr : t.filterMap (fun j => if j = a then some x else f j) =
          t.filterMap f := by
        apply List.filterMap_congr
        intro b hb
        rw [if_neg (by intro hba; exact hj0t (hba ▸ hb))]
      rw [List.filterMap_cons, List.filterMap_cons, if_pos rfl, hf]
      simp [hcongr]
    · have hnd2 := (List.nodup_cons.mp hnd).2
      have hmem2 : j0 ∈ t := by
        rcases List.mem_cons.mp hmem with h | h
        · exact absurd h.symm ha
        · exact h
      rw [List.filterMap_cons, List.filterMap_cons, if_neg ha]
      cases hfa : f a with
      | none => exact ih hnd2 hmem2
      | some y =>
        simp only [List.length_cons]
        rw [ih hnd2 hmem2]

theorem filterMap_length_untouched {n : Nat} (f g : Fin n → Option Nat)
    (hfg : ∀ j, g j = f j) (l : List (Fin n)) :
    (l.filterMap g).length = (l.filterMap f).length := by
  rw [List.filterMap_congr (fun j _ => hfg j)]

theorem validEntryCount_setEntry (pt : PT) (va q : Nat)
    (hw : pt.l2tgt = fun i => some i)
    (hv : ptIsValid pt va = false) :
    validEntryCount (ptSetEntry pt va (some q)) = validEntryCount pt + 1 := by
  have hnone : pt.entries (l2fin va) (l3fin va) = none := by
    rw [ptIsValid_wired pt va hw] at hv
    cases hx : pt.entries (l2fin va) (l3fin va) with
    | none => rfl
    | some y => rw [hx] at hv; simp at hv
  rw [ptSetEntry_wired pt va _ hw]
  unfold validEntryCount
  have h2 := (l2fin va).2
  have hcase : l2fin va = (0 : Fin 2) ∨ l2fin va = (1 : Fin 2) := by
    have hv01 : (l2fin va).1 = 0 ∨ (l2fin va).1 = 1 := by omega
    rcases hv01 with h | h
    · exact Or.inl (Fin.ext h)
    · exact Or.inr (Fin.ext h)
  rcases hcase with ht | ht
  · rw [ht] at hnone ⊢
    have hupd : ((List.finRange 8192).filterMap
        (fun j => if (0 : Fin 2) = 0 ∧ j = l3fin va then some q
          else pt.entries 0 j)).length =
        ((List.finRange 8192).filterMap (fun j => pt.entries 0 j)).length + 1 := by
      have hcongr : ∀ j : Fin 8192,
          (if (0 : Fin 2) = 0 ∧ j = l3fin va then some q else pt.entries 0 j) =
            (if j = l3fin va then some q else pt.entries 0 j) := by
        intro j
        by_cases hj : j = l3fin va
        · rw [if_pos ⟨rfl, hj⟩, if_pos hj]
        · rw [if_neg (by intro hc; exact hj hc.2), if_neg hj]
      rw [List.filterMap_congr (fun j _ => hcongr j)]
      exact filterMap_length_update (fun j => pt.entries 0 j) (l3fin va) q hnone
        (List.finRange 8192) (List.nodup_finRange 8192) (List.mem_finRange _)
    have huntouched : ((List.finRange 8192).filterMap
        (fun j => if (1 : Fin 2) = 0 ∧ j = l3fin va then some q
          else pt.entries 1 j)).length =
        ((List.finRange 8192).filterMap (fun j => pt.entries 1 j)).length := by
      apply filterMap_length_untouched
      intro j
      rw [if_neg (by intro hc; exact absurd hc.1 (by decide))]
    simp only [] at hupd huntouched ⊢
    omega
  · rw [ht] at hnone ⊢
    have hupd : ((List.finRange 8192).filterMap
        (fun j => if (1 : Fin 2) = 1 ∧ j = l3fin va then some q
          else pt.entries 1 j)).length =
        ((List.finRange 8192).filterMap (fun j => pt.entries 1 j)).length + 1 := by
      have hcongr : ∀ j : Fin 8192,
          (if (1 : Fin 2) = 1 ∧ j = l3fin va then some q else pt.entries 1 j) =
            (if j = l3fin va then some q else pt.entries 1 j) := by
        intro j
        by_cases hj : j = l3fin va
        · rw [if_pos ⟨rfl, hj⟩, if_pos hj]
        · rw [if_neg (by intro hc; exact hj hc.2), if_neg hj]
      rw [List.filterMap_congr (fun j _ => hcongr j)]
      exact filterMap_length_update (fun j => pt.entries 1 j) (l3fin va) q hnone
        (List.finRange 8192) (List.nodup_finRange 8192) (List.mem_finRange _)
    have huntouched : ((List.finRange 8192).filterMap
        (fun j => if (0 : Fin 2) = 1 ∧ j = l3fin va then some q
          else pt.entries 0 j)).length =
        ((List.finRange 8192).filterMap (fun j => pt.entries 0 j)).length := by
      apply filterMap_length_untouched
      intro j
      rw [if_neg (by intro hc; exact absurd hc.1 (by decide))]
    simp only [] at hupd huntouched ⊢
    omega

theorem uptAlloc_ok_inv (pt : PT) (va : Nat) (perm : PagePerm)
    (frame : Option Nat) (pt2 : PT) (page : Nat)
    (h : uptAlloc pt va perm frame = .ok pt2 page) :
    ptIsValid pt va = false ∧ frame = some page ∧
      pt2 = ptSetEntry pt va (some (addrMask page)) := by
  unfold uptAlloc at h
  by_cases h1 : va < USER_IMG_BASE
  · rw [if_pos h1] at h
    exact absurd h (by simp)
  · rw [if_neg h1] at h
    by_cases h2 : ptIsValid pt va = true
    · rw [if_pos h2] at h
      exact absurd h (by simp)
    · have h2f : ptIsValid pt va = false := by
        cases hx : ptIsValid pt va
        · rfl
        · exact absurd hx h2
      rw [if_neg (by rw [h2f]; simp)] at h
      cases hf : frame with
      | none => rw [hf] at h; exact absurd h (by simp)
      | some q =>
        rw [hf] at h
        injection h with h3 h4
        subst h4
        exact ⟨h2f, rfl, h3.symm⟩

theorem uptRun_cons (pt0 : PT) (va : Nat) (perm : PagePerm) (frame : Option Nat)
    (rest : List (Nat × PagePerm × Option Nat)) :
    uptRun pt0 ((va, perm, frame) :: rest) =
      match uptAlloc pt0 va perm frame with
      | .ok pt2 _ => (uptRun pt2 rest).map (fun r => (r.1, r.2 + 1))
      | _ => none := by
  rfl

theorem uptRun_spec (ops : List (Nat × PagePerm × Option Nat)) :
    ∀ pt0, pt0.l2tgt = (fun i => some i) →
      ∀ pt cnt, uptRun pt0 ops = some (pt, cnt) →
        pt.l2tgt = (fun i => some i) ∧
        validEntryCount pt = validEntryCount pt0 + cnt := by
  induction ops with
  | nil =>
    intro pt0 hw pt cnt h
    unfold uptRun at h
    injection h with h2
    injection h2 with h3 h4
    subst h3
    subst h4
    exact ⟨hw, by omega⟩
  | cons op rest ih =>
    obtain ⟨va, perm, frame⟩ := op
    intro pt0 hw pt cnt h
    rw [uptRun_cons] at h
    split at h
    · rename_i pt2 page halloc
      obtain ⟨hv, hf, hpt2⟩ := uptAlloc_ok_inv pt0 va perm frame pt2 page halloc
      subst hpt2
      have hw2 : (ptSetEntry pt0 va (some (addrMask page))).l2tgt =
          (fun i => some i) := by
        rw [ptSetEntry_l2tgt]
        exact hw
      cases hrec : uptRun (ptSetEntry pt0 va (some (addrMask page))) rest with
      | none => rw [hrec] at h; exact absurd h (by simp)
      | some r =>
        obtain ⟨pt3, c3⟩ := r
        rw [hrec] at h
        rw [show Option.map (fun r : PT × Nat => (r.1, r.2 + 1)) (some (pt3, c3)) =
          some (pt3, c3 + 1) from rfl] at h
        injection h with h2
        injection h2 with h3 h4
        subst h3
        subst h4
        obtain ⟨hw3, hcnt⟩ := ih _ hw2 pt3 c3 hrec
        have hstep := validEntryCount_setEntry pt0 va (addrMask page) hw hv
        exact ⟨hw3, by omega⟩
    all_goals exact absurd h (by simp)


theorem validEntryCount_zero (pt : PT) (h : ∀ i j, pt.entries i j = none) :
    validEntryCount pt = 0 := by
  have h0 : ∀ l : List (Fin 8192),
      (l.filterMap (fun j => pt.entries 0 j)).length = 0 ∧
      (l.filterMap (fun j => pt.entries 1 j)).length = 0 := by
    intro l
    induction l with
    | nil => exact ⟨rfl, rfl⟩
    | cons a t ih =>
      rw [List.filterMap_cons_none (h 0 a), List.filterMap_cons_none (h 1 a)]
      exact ih
  unfold validEntryCount
  rw [(h0 (List.finRange 8192)).1, (h0 (List.finRange 8192)).2]

theorem validEntryCount_ptNew : validEntryCount ptNew = 0 :=
  validEntryCount_zero ptNew (fun _ _ => rfl)

/-- C5: dropping a `UserPageTable` deallocates to the frame allocator
exactly one page for every valid L3 entry in its two L3 tables, and that
number equals the number of successful `alloc` calls made on the table. -/
theorem upt_drop_frees_alloc_count (ops : List (Nat × PagePerm × Option Nat))
    (pt : PT) (cnt : Nat) (h : uptRun ptNew ops = some (pt, cnt)) :
    (uptDropFrees pt).length = validEntryCount pt ∧ validEntryCount pt = cnt := by
  have hrun := uptRun_spec ops ptNew rfl pt cnt h
  refine ⟨?_, by rw [hrun.2, validEntryCount_ptNew]; omega⟩
  unfold uptDropFrees validEntryCount
  rw [List.length_append]

/-- Witness for C5: two successful allocs, two valid entries, two pages
freed by drop. -/
theorem upt_drop_frees_alloc_count_witness :
    (uptDropFrees uptW).length = validEntryCount uptW ∧ validEntryCount uptW = 2 :=
  upt_drop_frees_alloc_count
    [(USER_IMG_BASE, .RW, some 100), (USER_IMG_BASE + 65536, .RW, some 200)]
    uptW 2 (by rfl)

/-! ## Scheduler::add (C6) -/

/-- C6: `Scheduler::add(process)` assigns the new process the PID
`last_id + 1` (or 0 if no PID was ever assigned), stores that PID in the
process's `context.tpidr`, appends the process to the back of the queue,
records the PID as `last_id`, and returns `Some(pid)`; when `last_id` is
`u64::MAX` the call returns `None` and the scheduler state is unchanged. -/
theorem sched_add_assigns_next_pid (s : SchedQ) (p : SProc) :
    (s.last_id = some (2 ^ 64 - 1) → schedAdd s p = (s, none)) ∧
    (s.last_id = none →
      schedAdd s p =
        (⟨s.processes ++ [{ p with context := { p.context with tpidr := 0 } }],
          some 0⟩, some 0)) ∧
    (∀ v, v < 2 ^ 64 - 1 → s.last_id = some v →
      schedAdd s p =
        (⟨s.processes ++ [{ p with context := { p.context with tpidr := v + 1 } }],
          some (v + 1)⟩, some (v + 1))) := by
  refine ⟨?_, ?_, ?_⟩
  · intro h
    obtain ⟨procs, lid⟩ := s
    simp only [] at h
    subst h
    rfl
  · intro h
    obtain ⟨procs, lid⟩ := s
    simp only [] at h
    subst h
    rfl
  · intro v hv h
    obtain ⟨procs, lid⟩ := s
    simp only [] at h
    subst h
    simp only [schedAdd, checkedAddOne]
    rw [if_pos hv]

/-- Witness for C6: the overflow case at `last_id = u64::MAX` and the
normal case at `last_id = some 4`. -/
theorem sched_add_assigns_next_pid_witness :
    schedAdd ⟨[], some (2 ^ 64 - 1)⟩ ⟨⟨0, 0, 0⟩, .ready⟩ =
      (⟨[], some (2 ^ 64 - 1)⟩, none) ∧
    schedAdd ⟨[], some 4⟩ ⟨⟨0, 0, 0⟩, .ready⟩ =
      (⟨[⟨⟨5, 0, 0⟩, .ready⟩], some 5⟩, some 5) :=
  ⟨(sched_add_assigns_next_pid ⟨[], some (2 ^ 64 - 1)⟩ ⟨⟨0, 0, 0⟩, .ready⟩).1 rfl,
    (sched_add_assigns_next_pid ⟨[], some 4⟩ ⟨⟨0, 0, 0⟩, .ready⟩).2.2 4
      (by norm_num) rfl⟩

/-! ## Process::is_ready on Running and Dead states (C9) -/

/-- C9: calling `Process::is_ready` on a process whose state is neither
`Ready` nor `Waiting` (i.e. `Running` or `Dead`) returns false but leaves
the state permanently replaced by `Ready` — the `mem::replace`d state is
only restored in the `Waiting` arm — so an immediately following
`is_ready` on the same process returns true. -/
theorem is_ready_swallows_running_dead (env env2 : Nat) (p : SProc)
    (h : p.state = .running ∨ p.state = .dead) :
    isReadyStep env p = (false, { p with state := .ready }) ∧
    isReadyStep env2 { p with state := .ready } =
      (true, { p with state := .ready }) := by
  obtain ⟨ctx, st⟩ := p
  rcases h with h | h <;> simp only [] at h <;> subst h <;> exact ⟨rfl, rfl⟩

/-- Witness for C9 on a concrete running process. -/
theorem is_ready_swallows_running_dead_witness :
    isReadyStep 0 ⟨⟨9, 0, 0⟩, .running⟩ = (false, ⟨⟨9, 0, 0⟩, .ready⟩) ∧
    isReadyStep 1 ⟨⟨9, 0, 0⟩, .ready⟩ = (true, ⟨⟨9, 0, 0⟩, .ready⟩) :=
  is_ready_swallows_running_dead 0 1 ⟨⟨9, 0, 0⟩, .running⟩ (Or.inl rfl)

/-! ## The sleep syscall truncates to 32 bits (C10) -/

/-- C10: `handle_syscall` passes `tf.x_registers[0] as u32` to
`sys_sleep`, so for every requested duration the wait predicate's
deadline is `start_time` plus `x0 mod 2^32` milliseconds — and there are
requests (any `x0 ≥ 2^32`) whose deadline differs from `start + x0`
milliseconds. -/
theorem sleep_deadline_truncates_u32 :
    (∀ x0 startNs, handleSyscallSleep NR_SLEEP x0 startNs =
      .sleepUntil (startNs + x0 % 2 ^ 32 * 1000000)) ∧
    ∃ x0 startNs, handleSyscallSleep NR_SLEEP x0 startNs ≠
      .sleepUntil (startNs + x0 * 1000000) := by
  constructor
  · intro x0 startNs
    unfold handleSyscallSleep sysSleepDeadline millisToNanos u32cast
    rw [if_pos rfl]
  · refine ⟨2 ^ 32, 0, ?_⟩
    unfold handleSyscallSleep sysSleepDeadline millisToNanos u32cast
    rw [if_pos rfl]
    intro hcon
    injection hcon with hcon
    omega

/-! ## Bootloader receive loop (C8) -/

/-- C8 counterexample: on a non-timeout receive error the loop body turns
the activity LED on once and off once (set, 75 ms, clear, 75 ms) — a
single blink, not the two blinks the claim states. -/
theorem boot_led_blink_twice_cex :
    bootLoopStep (.error .other) =
      .retry [.set, .sleep75, .clear, .sleep75] ∧
    blinkCount [.set, .sleep75, .clear, .sleep75] = 1 ∧ (1 : Nat) ≠ 2 := by
  refine ⟨by decide, by decide, by decide⟩

/-- C8 amended: each XMODEM receive runs with a 750 ms UART read timeout;
when a receive fails with a non-timeout error the activity LED blinks
ONCE (on for 75 ms, off for 75 ms) before retrying, and when it fails
with a timeout the loop retries silently with no LED activity. -/
theorem boot_retry_led_once_timeout_silent (e : RecvErrKind) :
    BOOT_READ_TIMEOUT_MS = 750 ∧
    bootLoopStep (.error .timedOut) = .retry [] ∧
    (e ≠ .timedOut →
      bootLoopStep (.error e) = .retry [.set, .sleep75, .clear, .sleep75] ∧
      blinkCount [.set, .sleep75, .clear, .sleep75] = 1) := by
  refine ⟨rfl, by decide, ?_⟩
  intro he
  unfold bootLoopStep
  dsimp only
  rw [if_pos he]
  exact ⟨rfl, by decide⟩

/-- Witness for the amended C8 at the non-timeout error kind. -/
theorem boot_retry_led_once_timeout_silent_witness :
    BOOT_READ_TIMEOUT_MS = 750 ∧
    bootLoopStep (.error .timedOut) = .retry [] ∧
    (RecvErrKind.other ≠ .timedOut →
      bootLoopStep (.error .other) = .retry [.set, .sleep75, .clear, .sleep75] ∧
      blinkCount [.set, .sleep75, .clear, .sleep75] = 1) :=
  boot_retry_led_once_timeout_silent .other

/-! ## Scheduler selection (C7) -/

theorem isReadyStep_tpidr (env : Nat) (p : SProc) :
    ((isReadyStep env p).2).context.tpidr = p.context.tpidr := by
  obtain ⟨ctx, st⟩ := p
  cases st with
  | ready => rfl
  | running => rfl
  | dead => rfl
  | waiting f s =>
    unfold isReadyStep
    dsimp only
    split <;> rfl

theorem isReadyStep_afw (f : Nat → Nat → TF → Bool × Nat × Nat × Nat)
    (hf : AlwaysFalse f) (env : Nat) (p : SProc) (hw : WaitingOn f p) :
    (isReadyStep env p).1 = false ∧ WaitingOn f (isReadyStep env p).2 := by
  obtain ⟨st, hst⟩ := hw
  obtain ⟨ctx, pst⟩ := p
  have hst2 : pst = .waiting f st := hst
  subst hst2
  unfold isReadyStep
  dsimp only
  rw [hf env st ctx]
  exact ⟨rfl, (f env st ctx).2.1, rfl⟩

theorem scanReady_cons_true (env : Nat) (p : SProc) (rest : List SProc)
    (h : (isReadyStep env p).1 = true) :
    scanReady env (p :: rest) = ([], some ((isReadyStep env p).2, rest)) := by
  show (if (isReadyStep env p).1 = true
      then ([], some ((isReadyStep env p).2, rest))
      else ((isReadyStep env p).2 :: (scanReady env rest).1,
        (scanReady env rest).2)) = _
  rw [if_pos h]

theorem scanReady_cons_false (env : Nat) (p : SProc) (rest : List SProc)
    (h : (isReadyStep env p).1 = false) :
    scanReady env (p :: rest) =
      ((isReadyStep env p).2 :: (scanReady env rest).1, (scanReady env rest).2) := by
  show (if (isReadyStep env p).1 = true
      then ([], some ((isReadyStep env p).2, rest))
      else ((isReadyStep env p).2 :: (scanReady env rest).1,
        (scanReady env rest).2)) = _
  rw [if_neg (by rw [h]; simp)]

theorem scanReady_none (env : Nat) :
    ∀ l pre, scanReady env l = (pre, none) →
      pre = l.map (fun p => (isReadyStep env p).2) ∧
        ∀ p ∈ l, (isReadyStep env p).1 = false := by
  intro l
  induction l with
  | nil =>
    intro pre h
    injection h with h1 h2
    subst h1
    exact ⟨rfl, by simp⟩
  | cons p rest ih =>
    intro pre h
    cases hr1 : (isReadyStep env p).1 with
    | true =>
      rw [scanReady_cons_true env p rest hr1] at h
      exact absurd (congrArg Prod.snd h) (by simp)
    | false =>
      rw [scanReady_cons_false env p rest hr1] at h
      injection h with h1 h2
      subst h1
      obtain ⟨hpre, hall⟩ := ih (scanReady env rest).1 (Prod.ext rfl h2)
      refine ⟨by rw [List.map_cons, ← hpre], ?_⟩
      intro q hq
      rcases List.mem_cons.mp hq with rfl | hq2
      · exact hr1
      · exact hall q hq2

theorem scanReady_some (env : Nat) :
    ∀ l pre q suf, scanReady env l = (pre, some (q, suf)) →
      ∃ l1 q0 l2, l = l1 ++ q0 :: l2 ∧
        pre = l1.map (fun p => (isReadyStep env p).2) ∧ suf = l2 ∧
        isReadyStep env q0 = (true, q) ∧
        ∀ p ∈ l1, (isReadyStep env p).1 = false := by
  intro l
  induction l with
  | nil =>
    intro pre q suf h
    exact absurd (congrArg Prod.snd h) (by simp [scanReady])
  | cons p rest ih =>
    intro pre q suf h
    cases hr1 : (isReadyStep env p).1 with
    | true =>
      rw [scanReady_cons_true env p rest hr1] at h
      injection h with h1 h2
      subst h1
      injection h2 with h2
      injection h2 with h3 h4
      subst h4
      refine ⟨[], p, rest, by simp, rfl, rfl, ?_, by simp⟩
      rw [show isReadyStep env p =
        ((isReadyStep env p).1, (isReadyStep env p).2) from rfl, hr1, h3]
    | false =>
      rw [scanReady_cons_false env p rest hr1] at h
      injection h with h1 h2
      subst h1
      obtain ⟨l1, q0, l2, hl, hpre, hsuf, hq0, hall⟩ :=
        ih (scanReady env rest).1 q suf (Prod.ext rfl h2)
      refine ⟨p :: l1, q0, l2, by rw [hl]; rfl,
        by rw [List.map_cons, ← hpre], hsuf, hq0, ?_⟩
      intro r hr
      rcases List.mem_cons.mp hr with rfl | hr2
      · exact hr1
      · exact hall r hr2

theorem map_tpidr_of_stepped (env : Nat) (l : List SProc) :
    (l.map (fun p => (isReadyStep env p).2)).map (fun p => p.context.tpidr) =
      l.map (fun p => p.context.tpidr) := by
  rw [List.map_map]
  exact List.map_congr_left (fun p _ => isReadyStep_tpidr env p)

theorem switchTo_spec (f : Nat → Nat → TF → Bool × Nat × Nat × Nat)
    (hf : AlwaysFalse f) (id env : Nat) (procs : List SProc) (tf : TF)
    (hnd : (procs.map (fun p => p.context.tpidr)).Nodup)
    (haf : ∃ p ∈ procs, p.context.tpidr = id ∧ WaitingOn f p) :
    (((switchTo env procs tf).1).map (fun p => p.context.tpidr)).Nodup ∧
    (∃ p ∈ (switchTo env procs tf).1, p.context.tpidr = id ∧ WaitingOn f p) ∧
    (switchTo env procs tf).2.2 ≠ some id ∧
    ((switchTo env procs tf).2.1 = tf ∨ (switchTo env procs tf).2.1.tpidr ≠ id) := by
  obtain ⟨t, htmem, htid, htw⟩ := haf
  rcases hscan : scanReady env procs with ⟨pre, opt⟩
  cases opt with
  | none =>
    have hsw : switchTo env procs tf = (pre, tf, none) := by
      unfold switchTo
      rw [hscan]
    obtain ⟨hpre, hall⟩ := scanReady_none env procs pre hscan
    rw [hsw]
    dsimp only
    subst hpre
    refine ⟨?_, ?_, by simp, Or.inl rfl⟩
    · rw [map_tpidr_of_stepped]
      exact hnd
    · exact ⟨(isReadyStep env t).2, List.mem_map_of_mem _ htmem,
        by rw [isReadyStep_tpidr]; exact htid,
        (isReadyStep_afw f hf env t htw).2⟩
  | some v =>
    obtain ⟨q, suf⟩ := v
    have hsw : switchTo env procs tf =
        ({ q with state := .running } :: (pre ++ suf), q.context,
          some q.context.tpidr) := by
      unfold switchTo
      rw [hscan]
    obtain ⟨l1, q0, l2, hl, hpre, hsuf, hq0, hall⟩ :=
      scanReady_some env procs pre q suf hscan
    have hq2 : q = (isReadyStep env q0).2 := (congrArg Prod.snd hq0).symm
    have hqt : q.context.tpidr = q0.context.tpidr := by
      rw [hq2, isReadyStep_tpidr]
    have hq0mem : q0 ∈ procs := by
      rw [hl]
      exact List.mem_append_right _ (List.mem_cons_self _ _)
    have hq0id : q0.context.tpidr ≠ id := by
      intro hcon
      have ht_eq : t = q0 :=
        List.inj_on_of_nodup_map hnd htmem hq0mem (by rw [htid, hcon])
      have hfalse := (isReadyStep_afw f hf env q0 (ht_eq ▸ htw)).1
      have htrue : (isReadyStep env q0).1 = true := congrArg Prod.fst hq0
      rw [htrue] at hfalse
      exact absurd hfalse (by simp)
    have hperm : (procs.map (fun p => p.context.tpidr)).Perm
        (q0.context.tpidr :: (l1.map (fun p => p.context.tpidr) ++
          l2.map (fun p => p.context.tpidr))) := by
      rw [hl, List.map_append, List.map_cons]
      exact List.perm_middle
    have hnd2 := hperm.nodup hnd
    rw [hsw]
    dsimp only
    subst hpre
    subst hsuf
    refine ⟨?_, ?_, ?_, Or.inr (by rw [hqt]; exact hq0id)⟩
    · simp only [List.map_cons, List.map_append, map_tpidr_of_stepped]
      rw [hqt]
      exact hnd2
    · have htl : t ∈ l1 ∨ t = q0 ∨ t ∈ suf := by
        rw [hl] at htmem
        simpa using htmem
      rcases htl with htl | htl | htl
      · exact ⟨(isReadyStep env t).2,
          List.mem_cons_of_mem _ (List.mem_append_left _
            (List.mem_map_of_mem _ htl)),
          by rw [isReadyStep_tpidr]; exact htid,
          (isReadyStep_afw f hf env t htw).2⟩
      · exfalso
        have hfalse := (isReadyStep_afw f hf env q0 (htl ▸ htw)).1
        have htrue : (isReadyStep env q0).1 = true := congrArg Prod.fst hq0
        rw [htrue] at hfalse
        exact absurd hfalse (by simp)
      · exact ⟨t, List.mem_cons_of_mem _ (List.mem_append_right _ htl),
          htid, htw⟩
    · intro hcon
      injection hcon with hcon
      rw [hqt] at hcon
      exact hq0id hcon

theorem findRunIdx_spec (tpid : Nat) :
    ∀ l i, findRunIdx tpid l = some i →
      ∃ p, l[i]? = some p ∧ p.context.tpidr = tpid ∧ isRun p.state = true := by
  intro l
  induction l with
  | nil => intro i h; simp [findRunIdx] at h
  | cons p rest ih =>
    intro i h
    unfold findRunIdx at h
    by_cases hc : p.context.tpidr = tpid ∧ isRun p.state = true
    · rw [if_pos hc] at h
      injection h with h1
      subst h1
      exact ⟨p, by simp, hc.1, hc.2⟩
    · rw [if_neg hc] at h
      cases hrec : findRunIdx tpid rest with
      | none => rw [hrec] at h; exact absurd h (by simp)
      | some j =>
        rw [hrec] at h
        have h2 : some (j + 1) = some i := h
        injection h2 with h2
        subst h2
        obtain ⟨q, hq, hq2, hq3⟩ := ih j hrec
        exact ⟨q, by simpa using hq, hq2, hq3⟩

theorem map_eraseIdx_comm (l : List SProc) (i : Nat)
    (g : SProc → Nat) : (l.eraseIdx i).map g = (l.map g).eraseIdx i := by
  rw [List.eraseIdx_eq_take_drop_succ, List.eraseIdx_eq_take_drop_succ,
    List.map_append, List.map_take, List.map_drop]

theorem scheduleOut_spec (f : Nat → Nat → TF → Bool × Nat × Nat × Nat)
    (id : Nat) (ns : PState) (tf : TF) (procs : List SProc)
    (hnd : (procs.map (fun p => p.context.tpidr)).Nodup)
    (haf : ∃ p ∈ procs, p.context.tpidr = id ∧ WaitingOn f p) :
    (((scheduleOut procs ns tf).1).map (fun p => p.context.tpidr)).Nodup ∧
    (∃ p ∈ (scheduleOut procs ns tf).1, p.context.tpidr = id ∧ WaitingOn f p) := by
  obtain ⟨t, htmem, htid, htw⟩ := haf
  cases hfind : findRunIdx tf.tpidr procs with
  | none =>
    have hres : scheduleOut procs ns tf = (procs, false) := by
      unfold scheduleOut
      rw [hfind]
    rw [hres]
    exact ⟨hnd, t, htmem, htid, htw⟩
  | some i =>
    obtain ⟨p, hp, hpt, hprun⟩ := findRunIdx_spec tf.tpidr procs i hfind
    have hres : scheduleOut procs ns tf =
        (if isDead ns then procs.eraseIdx i
          else procs.eraseIdx i ++ [⟨tf, ns⟩], true) := by
      unfold scheduleOut
      rw [hfind]
      dsimp only
      rw [hp]
    have htnotp : t ≠ p := by
      intro hcon
      obtain ⟨st, hst⟩ := htw
      rw [← hcon, hst] at hprun
      exact absurd hprun (by simp [isRun])
    have htmem2 : t ∈ procs.eraseIdx i := by
      rw [List.mem_eraseIdx_iff_getElem?]
      obtain ⟨j, hj⟩ := List.getElem?_of_mem htmem
      refine ⟨j, ?_, hj⟩
      intro hji
      rw [hji, hp] at hj
      injection hj with hj
      exact htnotp hj.symm
    have hndE : ((procs.eraseIdx i).map (fun p => p.context.tpidr)).Nodup :=
      ((List.eraseIdx_sublist procs i).map _).nodup hnd
    rw [hres]
    dsimp only
    by_cases hdead : isDead ns = true
    · rw [if_pos hdead]
      exact ⟨hndE, t, htmem2, htid, htw⟩
    · rw [if_neg hdead]
      refine ⟨?_, t, List.mem_append_left _ htmem2, htid, htw⟩
      obtain ⟨hi, hgi⟩ := List.getElem?_eq_some_iff.mp hp
      have hiL : i < (procs.map (fun p => p.context.tpidr)).length := by
        rw [List.length_map]
        exact hi
      have hLi : (procs.map (fun p => p.context.tpidr))[i] = tf.tpidr := by
        rw [List.getElem_map]
        rw [hgi]
        exact hpt
      have hperm1 : (procs.map (fun p => p.context.tpidr)).Perm
          (tf.tpidr :: ((procs.map (fun p => p.context.tpidr)).eraseIdx i)) := by
        conv =>
          lhs
          rw [← List.take_append_drop i (procs.map (fun p => p.context.tpidr)),
            List.drop_eq_getElem_cons hiL, hLi]
        rw [List.eraseIdx_eq_take_drop_succ]
        exact List.perm_middle
      have hperm2 : ((procs.eraseIdx i ++ [(⟨tf, ns⟩ : SProc)]).map
          (fun p => p.context.tpidr)).Perm
          (tf.tpidr :: ((procs.map (fun p => p.context.tpidr)).eraseIdx i)) := by
        rw [List.map_append, map_eraseIdx_comm]
        exact List.perm_append_singleton _ _
      exact hperm2.symm.nodup (hperm1.nodup hnd)

theorem schedStep_spec (f : Nat → Nat → TF → Bool × Nat × Nat × Nat)
    (hf : AlwaysFalse f) (id : Nat) (m : SchedM) (op : SchedOp)
    (hnd : (m.procs.map (fun p => p.context.tpidr)).Nodup)
    (haf : ∃ p ∈ m.procs, p.context.tpidr = id ∧ WaitingOn f p) :
    ((schedStep m op).1.procs.map (fun p => p.context.tpidr)).Nodup ∧
    (∃ p ∈ (schedStep m op).1.procs, p.context.tpidr = id ∧ WaitingOn f p) ∧
    (schedStep m op).2 ≠ some id ∧
    ((schedStep m op).1.tf = m.tf ∨ (schedStep m op).1.tf.tpidr ≠ id) := by
  cases op with
  | switchTo env =>
    have h := switchTo_spec f hf id env m.procs m.tf hnd haf
    exact ⟨h.1, h.2.1, h.2.2.1, h.2.2.2⟩
  | switch ns env =>
    have h1 := scheduleOut_spec f id ns m.tf m.procs hnd haf
    have h2 := switchTo_spec f hf id env (scheduleOut m.procs ns m.tf).1
      m.tf h1.1 h1.2
    exact ⟨h2.1, h2.2.1, h2.2.2.1, h2.2.2.2⟩

/-- C7: a process whose state is `Waiting(p)` with a predicate `p` that
always returns false is never selected by `Scheduler::switch_to`: across
any number of bare `switch_to` attempts and `switch(new_state)` calls
(the timer tick is `switch(Ready)`), the process is still `Waiting` on
the same predicate at the end (in particular its state is never set to
`Running`), no `switch_to` along the trace ever returns its PID, and the
trap frame is either untouched or holds a different process's context
(its context is never copied into the trap frame).  The PIDs in the
queue are assumed pairwise distinct, which `Scheduler::add` guarantees. -/
theorem waiting_always_false_never_selected
    (f : Nat → Nat → TF → Bool × Nat × Nat × Nat) (hf : AlwaysFalse f)
    (id : Nat) :
    ∀ (ops : List SchedOp) (m : SchedM),
      (m.procs.map (fun p => p.context.tpidr)).Nodup →
      (∃ p ∈ m.procs, p.context.tpidr = id ∧ WaitingOn f p) →
      (∃ p ∈ (schedRun m ops).1.procs, p.context.tpidr = id ∧ WaitingOn f p) ∧
      (∀ q ∈ (schedRun m ops).2, q ≠ some id) ∧
      ((schedRun m ops).1.tf = m.tf ∨ (schedRun m ops).1.tf.tpidr ≠ id) := by
  intro ops
  induction ops with
  | nil =>
    intro m hnd haf
    exact ⟨haf, by simp [schedRun], Or.inl rfl⟩
  | cons op rest ih =>
    intro m hnd haf
    have hstep := schedStep_spec f hf id m op hnd haf
    have hrec := ih (schedStep m op).1 hstep.1 hstep.2.1
    refine ⟨hrec.1, ?_, ?_⟩
    · intro q hq
      have hq2 : q ∈ (schedStep m op).2 ::
          (schedRun (schedStep m op).1 rest).2 := hq
      rcases List.mem_cons.mp hq2 with rfl | hq3
      · exact hstep.2.2.1
      · exact hrec.2.1 q hq3
    · have heq : (schedRun m (op :: rest)).1.tf =
          (schedRun (schedStep m op).1 rest).1.tf := rfl
      rcases hrec.2.2 with h1 | h1
      · rcases hstep.2.2.2 with h2 | h2
        · exact Or.inl (by rw [heq, h1, h2])
        · exact Or.inr (by rw [heq, h1]; exact h2)
      · exact Or.inr (by rw [heq]; exact h1)

/-- Witness for C7: PID 7 waits on the never-true predicate while PID 3
is ready; across a bare `switch_to`, a tick, and a `switch` into a
waiting state, PID 7 is still waiting, is never returned, and never
reaches the trap frame. -/
theorem waiting_always_false_never_selected_witness :
    (∃ p ∈ (schedRun schedMW schedOpsW).1.procs,
      p.context.tpidr = 7 ∧ WaitingOn awFalsePred p) ∧
    (∀ q ∈ (schedRun schedMW schedOpsW).2, q ≠ some 7) ∧
    ((schedRun schedMW schedOpsW).1.tf = schedMW.tf ∨
      (schedRun schedMW schedOpsW).1.tf.tpidr ≠ 7) :=
  waiting_always_false_never_selected awFalsePred (fun _ _ _ => rfl) 7
    schedOpsW schedMW (by decide)
    ⟨⟨⟨7, 0, 0⟩, .waiting awFalsePred 0⟩, List.mem_cons_self _ _, rfl, ⟨0, rfl⟩⟩
